import Mathlib

/-!
Shallow embedding of the mirror failover / auto-restore engine of
`scripts/moveonjoy_updater.py`.

Text is modelled as lists of characters (`Line`).  Network probing is
modelled as a pure predicate `probe : Line → Bool` on URLs: the Python
implementation caches `fast_check_url_m3u` per URL for the lifetime of a
run (`_cache`), so within one run the probe behaves as a pure function,
which is exactly what the spec's `ProbeResult` idempotence clause states.
Thread-pool fan-out in the source only evaluates this pure predicate on
several URLs; every collection point (`zip(batch, results)`,
per-index writes of futures keyed by distinct line indices) is
order-insensitive, so the embedding uses the corresponding deterministic
fold.
-/

abbrev Line := List Char

/-- Character data of a string literal; used to embed the Python string
constants of the script. -/
def chars (s : String) : Line := s.data

/-- Whitespace as matched by the regex class `\s` of Python `re` on `str`
patterns (ASCII whitespace, the C1 separators, NEL, and the Unicode space
separators). -/
def pyIsSpace (c : Char) : Bool :=
  c == ' ' || c == '\t' || c == '\n' || c == '\r' ||
  c.val == 0x0b || c.val == 0x0c ||
  c.val == 0x1c || c.val == 0x1d || c.val == 0x1e || c.val == 0x1f ||
  c.val == 0x85 || c.val == 0xa0 || c.val == 0x1680 ||
  (0x2000 ≤ c.val && c.val ≤ 0x200a) ||
  c.val == 0x2028 || c.val == 0x2029 || c.val == 0x202f || c.val == 0x3000

/-- Line boundaries recognised by Python `str.splitlines`. -/
def pyIsLineBreak (c : Char) : Bool :=
  c == '\n' || c == '\r' ||
  c.val == 0x0b || c.val == 0x0c ||
  c.val == 0x1c || c.val == 0x1d || c.val == 0x1e ||
  c.val == 0x85 || c.val == 0x2028 || c.val == 0x2029

/-- Python substring membership `needle in hay`. -/
def containsSub (needle : Line) : Line → Bool
  | [] => needle.isEmpty
  | c :: cs => needle.isPrefixOf (c :: cs) || containsSub needle cs

/-! Model of `str.splitlines`: split off one line (consuming the break,
with `\r\n` counting as a single break), then recurse. -/

/-- One step of `splitlines`: the first line and the remainder after its
line break. -/
def takeLine : Line → Line × Line
  | [] => ([], [])
  | c :: cs =>
    if pyIsLineBreak c then
      if c == '\r' then
        if cs.head? == some '\n' then ([], cs.tail) else ([], cs)
      else ([], cs)
    else
      (c :: (takeLine cs).1, (takeLine cs).2)

/-- Fuel-indexed worker for `pysplitlines`; `fuel ≥ length` suffices. -/
def pysplitlinesAux : Nat → Line → List Line
  | 0, _ => []
  | _, [] => []
  | fuel + 1, c :: cs =>
    let p := takeLine (c :: cs)
    p.1 :: pysplitlinesAux fuel p.2

/-- Python `txt.splitlines()`. -/
def pysplitlines (txt : Line) : List Line := pysplitlinesAux txt.length txt

/-- Model of `read_playlist_lines`: the line list together with the raw
text. -/
def read_playlist_lines (txt : Line) : List Line × Line := (pysplitlines txt, txt)

/-- The text `"\n".join(lines)`. -/
def joinLines (lines : List Line) : Line := List.intercalate (chars "\n") lines

/-- Model of `write_playlist_lines`: the exact text written to disk
(`"\n".join(lines)`, with a final newline appended when missing). -/
def write_playlist_lines (lines : List Line) : Line :=
  if (joinLines lines).getLast? == some '\n' then joinLines lines
  else joinLines lines ++ ['\n']

/-! Model of the regex `FL_RE = https://(fl\d+)\.moveonjoy\.com/([^\s]+)`.
The pattern has no backtracking ambiguity: the digit run, and then the
non-space run, are simply maximal munches followed by literals drawn from
disjoint character classes. -/

/-- A match of `FL_RE`: `full` is group 0, `sub` group 1 (`flNN`), `path`
group 2, and `rest` the text after the match. -/
structure FLMatch where
  full : Line
  sub : Line
  path : Line
  rest : Line
deriving DecidableEq

/-- Match `FL_RE` anchored at the start of the text. -/
def matchFLAt (cs : Line) : Option FLMatch :=
  if (chars "https://fl").isPrefixOf cs then
    let t := cs.drop 10
    let ds := t.takeWhile Char.isDigit
    let r1 := t.dropWhile Char.isDigit
    if ds.isEmpty then none
    else if (chars ".moveonjoy.com/").isPrefixOf r1 then
      let r2 := r1.drop 15
      let p := r2.takeWhile (fun c => !pyIsSpace c)
      let r3 := r2.dropWhile (fun c => !pyIsSpace c)
      if p.isEmpty then none
      else some ⟨chars "https://fl" ++ ds ++ chars ".moveonjoy.com/" ++ p,
                 chars "fl" ++ ds, p, r3⟩
    else none
  else none

/-- Model of `FL_RE.search`: the leftmost match, if any. -/
def flSearch : Line → Option FLMatch
  | [] => none
  | c :: cs =>
    match matchFLAt (c :: cs) with
    | some m => some m
    | none => flSearch cs

/-- Fuel-indexed worker for `reSubAll`; `fuel ≥ length` suffices. -/
def reSubAllAux (repl : Line) : Nat → Line → Line
  | 0, cs => cs
  | fuel + 1, cs =>
    match cs, matchFLAt cs with
    | _, some m => repl ++ reSubAllAux repl fuel m.rest
    | [], none => []
    | c :: cs', none => c :: reSubAllAux repl fuel cs'

/-- Model of `re.sub(r"https://fl\d+\.moveonjoy\.com/[^\s]+", repl, cs)`:
replace every (leftmost, non-overlapping) match by `repl`. -/
def reSubAll (repl : Line) (cs : Line) : Line := reSubAllAux repl cs.length cs

/-! Configuration constants of the script. -/

def SUB_MIN : Nat := 3
def SUB_MAX : Nat := 50

/-- Candidate mirror ids in priority order: `list(range(SUB_MAX, SUB_MIN - 1, -1))`,
i.e. fl50 down to fl3. -/
def SUB_RANGE : List Nat := (List.range (SUB_MAX - SUB_MIN + 1)).map (fun i => SUB_MAX - i)

def SAMPLE_LIMIT : Nat := 3
def COOLDOWN_SECONDS : Int := 3600
def THREAD_WORKERS : Nat := 12

/-- Batch width of `find_fallback_for_path_parallel`: `min(THREAD_WORKERS, 8)`. -/
def FAILOVER_BATCH : Nat := min THREAD_WORKERS 8

/-- Decimal digit characters of a natural number (the Python `str(n)` for
the `f"fl{n}"` template), by fuel-indexed structural recursion. -/
def natDigitsAux : Nat → Nat → Line
  | 0, _ => []
  | fuel + 1, n =>
    if n < 10 then [Char.ofNat (48 + n)]
    else natDigitsAux fuel (n / 10) ++ [Char.ofNat (48 + n % 10)]

/-- Decimal representation of `n`. -/
def natToDigits (n : Nat) : Line := natDigitsAux (n + 1) n

/-- The Python template `f"fl{n}"`. -/
def flName (n : Nat) : Line := chars "fl" ++ natToDigits n

/-- The URL template `f"https://{sub}.moveonjoy.com/{path}"`. -/
def mkUrl (sub path : Line) : Line :=
  chars "https://" ++ sub ++ chars ".moveonjoy.com/" ++ path

/-! Python `enumerate` over the playlist lines. -/

def pyEnumFrom : Nat → List Line → List (Nat × Line)
  | _, [] => []
  | i, l :: ls => (i, l) :: pyEnumFrom (i + 1) ls

def pyEnum (lines : List Line) : List (Nat × Line) := pyEnumFrom 0 lines

/-- Model of `enumerate_lines_using_subdomain`: indices, matched URLs
(group 0) and paths (group 2) of lines that contain `"http"` and
`f"{sub}.moveonjoy.com"` and match `FL_RE`. -/
def enumerate_lines_using_subdomain (lines : List Line) (sub : Line) :
    List (Nat × Line × Line) :=
  (pyEnum lines).filterMap (fun e =>
    if containsSub (chars "http") e.2 && containsSub (sub ++ chars ".moveonjoy.com") e.2 then
      match flSearch e.2 with
      | some m => some (e.1, m.full, m.path)
      | none => none
    else none)

/-- Model of `enumerate_all_fl_lines`: indices, matched URLs, paths and
subdomains of lines that contain `"http"` and `"moveonjoy.com"` and match
`FL_RE`. -/
def enumerate_all_fl_lines (lines : List Line) :
    List (Nat × Line × Line × Line) :=
  (pyEnum lines).filterMap (fun e =>
    if containsSub (chars "http") e.2 && containsSub (chars "moveonjoy.com") e.2 then
      match flSearch e.2 with
      | some m => some (e.1, m.full, m.path, m.sub)
      | none => none
    else none)

/-- Model of `extract_current_subdomain_from_lines`: group 1 of the first
line matching `FL_RE`. -/
def extract_current_subdomain_from_lines (lines : List Line) : Option Line :=
  lines.findSome? (fun line => (flSearch line).map (fun m => m.sub))

/-- Model of `subdomain_alive_any_fast`: sample up to `SAMPLE_LIMIT`
matched URLs of lines on `sub`; `False` on an empty sample, otherwise
true iff some sampled URL probes playable (the parallel fan-out returns
on the first success; with a pure probe this is `any`). -/
def subdomain_alive_any_fast (probe : Line → Bool) (lines : List Line) (sub : Line) : Bool :=
  let sample := ((enumerate_lines_using_subdomain lines sub).take SAMPLE_LIMIT).map
    (fun e => e.2.1)
  if sample.isEmpty then false else sample.any probe

/-- Candidate subdomains of `find_fallback_for_path_parallel`:
`[f"fl{n}" for n in SUB_RANGE if exclude_sub is None or f"fl{n}" != exclude_sub]`. -/
def candidateSubs (exclude : Option Line) : List Line :=
  (SUB_RANGE.filter (fun n => !(exclude == some (flName n)))).map flName

/-- Fuel-indexed worker for the batched candidate scan: probe a batch of
`FAILOVER_BATCH` candidates, take the first success in batch (priority)
order, else continue with the next batch. -/
def findFallbackAux (probe : Line → Bool) (path : Line) : Nat → List Line → Option Line
  | 0, _ => none
  | _, [] => none
  | fuel + 1, s :: rest =>
    let batch := s :: rest.take (FAILOVER_BATCH - 1)
    let results := batch.map (fun sub => probe (mkUrl sub path))
    match (batch.zip results).find? (fun q => q.2) with
    | some q => some q.1
    | none => findFallbackAux probe path fuel (rest.drop (FAILOVER_BATCH - 1))

/-- Model of `find_fallback_for_path_parallel`: first working `flNN` for a
path, probing in priority order in parallel batches. -/
def find_fallback_for_path_parallel (probe : Line → Bool) (path : Line)
    (exclude : Option Line) : Option Line :=
  let subs := candidateSubs exclude
  findFallbackAux probe path subs.length subs

/-- Model of `find_any_fallback_main_fast`: first subdomain in priority
order (skipping the excluded one) on which any sampled line is playable. -/
def find_any_fallback_main_fast (probe : Line → Bool) (lines : List Line)
    (exclude : Option Line) : Option Line :=
  ((SUB_RANGE.map flName).filter (fun sub => !(exclude == some sub))).find?
    (fun sub => subdomain_alive_any_fast probe lines sub)

/-! The per-channel failover pass. -/

/-- Result of `per_channel_failover_fast`: the new line list, the changed
flag, and the resources logged as having no fallback (degraded). -/
structure FailoverResult where
  lines : List Line
  changed : Bool
  degraded : List (Nat × Line)
deriving DecidableEq

/-- The `to_fix` list of `per_channel_failover_fast`: entries on the main
subdomain whose test URL fails the probe. -/
def to_fixOf (probe : Line → Bool) (lines : List Line) (cm : Line) : List (Nat × Line) :=
  ((enumerate_lines_using_subdomain lines cm).filter
      (fun e => !probe (mkUrl cm e.2.2))).map (fun e => (e.1, e.2.2))

/-- One `to_fix` entry of the failover pass: on a found fallback rewrite
the line and set `changed`; otherwise log the resource as degraded. -/
def failoverStep (probe : Line → Bool) (cm : Line) (acc : FailoverResult)
    (e : Nat × Line) : FailoverResult :=
  match find_fallback_for_path_parallel probe e.2 (some cm) with
  | some fb =>
      { lines := acc.lines.set e.1 (reSubAll (mkUrl fb e.2) (acc.lines.getD e.1 []))
        changed := true
        degraded := acc.degraded }
  | none => { acc with degraded := (e.1, e.2) :: acc.degraded }

/-- Model of `per_channel_failover_fast`. -/
def per_channel_failover_fast (probe : Line → Bool) (lines : List Line) (cm : Line) :
    FailoverResult :=
  if (enumerate_lines_using_subdomain lines cm).isEmpty then ⟨lines, false, []⟩
  else if (to_fixOf probe lines cm).isEmpty then ⟨lines, false, []⟩
  else (to_fixOf probe lines cm).foldl (failoverStep probe cm) ⟨lines, false, []⟩

/-! The auto-restore pass. -/

/-- Result of `auto_restore_to_main_fast`: the new line list, the changed
flag, and the resources logged as restored. -/
structure RestoreResult where
  lines : List Line
  changed : Bool
  restored : List (Nat × Line)
deriving DecidableEq

/-- The entries the restore pass probes: all `FL_RE` lines whose subdomain
differs from the current main, with their paths. -/
def restoreEntries (lines : List Line) (cm : Line) : List (Nat × Line) :=
  ((enumerate_all_fl_lines lines).filter (fun e => !(e.2.2.2 == cm))).map
    (fun e => (e.1, e.2.2.1))

/-- One restore entry: if the main serves the path, rewrite the line to the
main URL and record the restore. -/
def restoreStep (probe : Line → Bool) (cm : Line) (acc : RestoreResult)
    (e : Nat × Line) : RestoreResult :=
  if probe (mkUrl cm e.2) then
    { lines := acc.lines.set e.1 (reSubAll (mkUrl cm e.2) (acc.lines.getD e.1 []))
      changed := true
      restored := (e.1, e.2) :: acc.restored }
  else acc

/-- Model of `auto_restore_to_main_fast`. -/
def auto_restore_to_main_fast (probe : Line → Bool) (lines : List Line) (cm : Line) :
    RestoreResult :=
  (restoreEntries lines cm).foldl (restoreStep probe cm) ⟨lines, false, []⟩

/-! The publish gate. -/

/-- Observable outcome of `git_commit_and_push_if_changed`: the text
written to the playlist file (if any), whether the external
commit-and-push step ran, the resulting persisted timestamp, and the
returned boolean.  The git subprocess calls themselves are external; the
model takes the happy path in which an attempted commit-and-push
succeeds. -/
structure GitResult where
  written : Option Line
  pushed : Bool
  newLast : Int
  ret : Bool
deriving DecidableEq

/-- Model of `git_commit_and_push_if_changed`, with `now` for
`int(time.time())` and `last` for the timestamp read from
`LAST_UPDATE_FILE` (0 when absent/unreadable). -/
def git_commit_and_push_if_changed (old_text : Line) (new_lines : List Line)
    (cooldown : Int) (now last : Int) : GitResult :=
  let new_text := joinLines new_lines
  if new_text == old_text then ⟨none, false, last, false⟩
  else
    let file := if new_text.getLast? == some '\n' then new_text else new_text ++ ['\n']
    if cooldown ≠ 0 ∧ now - last < cooldown then ⟨some file, false, last, true⟩
    else ⟨some file, true, now, true⟩

/-! Orchestration of `main()` after the playlist has been loaded. -/

/-- The passes `main()` can run over the catalog, in order. -/
inductive PassKind where
  | restorePass
  | failoverPass
  | migratePass
deriving DecidableEq

/-- The ordered sequence of engine passes executed by `main()` on a loaded
catalog: with a live main, the restore pass runs and, only when it changed
nothing, the per-channel failover pass follows; with a dead main, either a
whole-catalog migration to a fallback main or (when none is found) the
per-channel failover pass runs. -/
def mainTrace (probe : Line → Bool) (lines : List Line) : List PassKind :=
  match extract_current_subdomain_from_lines lines with
  | none => []
  | some cm =>
    if subdomain_alive_any_fast probe lines cm then
      if (auto_restore_to_main_fast probe lines cm).changed then [PassKind.restorePass]
      else [PassKind.restorePass, PassKind.failoverPass]
    else
      match find_any_fallback_main_fast probe lines (some cm) with
      | none => [PassKind.failoverPass]
      | some _ => [PassKind.migratePass]

/-! Well-formedness of catalog lines, used as hypotheses by several
theorems: a line is either a bare mirror URL whose path does not itself
contain a mirror-host token, or a line free of the `.moveonjoy.com`
token. -/

/-- Parse a line that consists exactly of one `FL_RE` URL:
`https://fl<ds>.moveonjoy.com/<path>` with a nonempty digit run and a
nonempty non-space path not containing `".moveonjoy.com"`.  Returns the
digit run and the path. -/
def bareFLParse (line : Line) : Option (Line × Line) :=
  if (chars "https://fl").isPrefixOf line then
    let t := line.drop 10
    let ds := t.takeWhile Char.isDigit
    let r := t.dropWhile Char.isDigit
    if ds.isEmpty then none
    else if (chars ".moveonjoy.com/").isPrefixOf r then
      let p := r.drop 15
      if p.isEmpty then none
      else if p.all (fun c => !pyIsSpace c) && !containsSub (chars ".moveonjoy.com") p then
        some (ds, p)
      else none
    else none
  else none

/-- A well-formed catalog line: a bare mirror URL, or a line not containing
the `.moveonjoy.com` token at all. -/
def WFLine (line : Line) : Bool :=
  (bareFLParse line).isSome || !containsSub (chars ".moveonjoy.com") line

/-- A well-formed catalog. -/
def WFCatalog (lines : List Line) : Prop := ∀ line ∈ lines, WFLine line = true

/-- A well-formed main subdomain token `fl<ds>`. -/
def WFMain (cm : Line) : Prop :=
  ∃ ds, cm = chars "fl" ++ ds ∧ ds ≠ [] ∧ ∀ c ∈ ds, c.isDigit = true

/-! Basic helper lemmas about `isPrefixOf`, `takeWhile` and `containsSub`. -/

theorem isPrefixOf_self_append (a b : Line) : a.isPrefixOf (a ++ b) = true := by
  induction a with
  | nil => simp [List.isPrefixOf]
  | cons c cs ih => simp [List.isPrefixOf, ih]

theorem eq_append_drop_of_isPrefixOf :
    ∀ {a s : Line}, a.isPrefixOf s = true → s = a ++ s.drop a.length := by
  intro a
  induction a with
  | nil => intro s _; simp
  | cons c cs ih =>
    intro s h
    cases s with
    | nil => simp [List.isPrefixOf] at h
    | cons d ds =>
      simp only [List.isPrefixOf, Bool.and_eq_true, beq_iff_eq] at h
      obtain ⟨h1, h2⟩ := h
      subst h1
      simpa using congrArg (c :: ·) (ih h2)

theorem isPrefixOf_cons_false {a : Char} {as : Line} {c : Char} {cs : Line}
    (h : (a == c) = false) : (a :: as).isPrefixOf (c :: cs) = false := by
  simp only [List.isPrefixOf, Bool.and_eq_false_iff]
  exact Or.inl h

theorem takeWhile_dropWhile_append (p : Char → Bool) :
    ∀ (xs ys : Line), (∀ c ∈ xs, p c = true) →
      (∀ c, ys.head? = some c → p c = false) →
      (xs ++ ys).takeWhile p = xs ∧ (xs ++ ys).dropWhile p = ys := by
  intro xs
  induction xs with
  | nil =>
    intro ys _ h2
    cases ys with
    | nil => simp
    | cons y ys' =>
      have hy : p y = false := h2 y rfl
      simp [List.takeWhile, List.dropWhile, hy]
  | cons x xs ih =>
    intro ys h1 h2
    have hx : p x = true := h1 x (by simp)
    have := ih ys (fun c hc => h1 c (by simp [hc])) h2
    simp [List.takeWhile, List.dropWhile, hx, this.1, this.2]

theorem head?_dropWhile (p : Char → Bool) :
    ∀ (l : Line) (c : Char), (l.dropWhile p).head? = some c → p c = false := by
  intro l
  induction l with
  | nil => intro c h; simp [List.dropWhile] at h
  | cons x xs ih =>
    intro c h
    by_cases hx : p x = true
    · rw [List.dropWhile_cons_of_pos hx] at h
      exact ih c h
    · rw [List.dropWhile_cons_of_neg hx] at h
      simp only [List.head?_cons, Option.some.injEq] at h
      subst h
      exact Bool.eq_false_iff.mpr hx

theorem mem_takeWhile_eq_true (p : Char → Bool) :
    ∀ (l : Line) (c : Char), c ∈ l.takeWhile p → p c = true := by
  intro l
  induction l with
  | nil => intro c h; simp [List.takeWhile] at h
  | cons x xs ih =>
    intro c h
    by_cases hx : p x = true
    · rw [List.takeWhile_cons_of_pos hx] at h
      rcases List.mem_cons.mp h with h | h
      · subst h; exact hx
      · exact ih c h
    · rw [List.takeWhile_cons_of_neg hx] at h
      simp at h

theorem containsSub_of_isPrefixOf {n s : Line} (h : n.isPrefixOf s = true) :
    containsSub n s = true := by
  cases s with
  | nil =>
    cases n with
    | nil => rfl
    | cons a as => simp [List.isPrefixOf] at h
  | cons c cs => simp [containsSub, h]

theorem containsSub_append_right {n t : Line} :
    ∀ (s : Line), containsSub n t = true → containsSub n (s ++ t) = true := by
  intro s
  induction s with
  | nil => intro h; simpa using h
  | cons c cs ih => intro h; simp [containsSub, ih h]

theorem containsSub_at (n a b : Line) : containsSub n (a ++ n ++ b) = true := by
  rw [List.append_assoc]
  exact containsSub_append_right a (containsSub_of_isPrefixOf (isPrefixOf_self_append n b))

theorem containsSub_of_isPrefixOf_append {x y : Line} :
    ∀ {s : Line}, (x ++ y).isPrefixOf s = true → containsSub y s = true := by
  induction x with
  | nil => intro s h; exact containsSub_of_isPrefixOf (by simpa using h)
  | cons c cs ih =>
    intro s h
    cases s with
    | nil => simp [List.isPrefixOf] at h
    | cons d ds =>
      simp only [List.cons_append, List.isPrefixOf, Bool.and_eq_true] at h
      simp [containsSub, ih h.2]

theorem containsSub_mono {x y : Line} :
    ∀ {s : Line}, containsSub (x ++ y) s = true → containsSub y s = true := by
  intro s
  induction s with
  | nil =>
    intro h
    simp only [containsSub, List.isEmpty_iff, List.append_eq_nil] at h
    simp [containsSub, h.2]
  | cons c cs ih =>
    intro h
    simp only [containsSub, Bool.or_eq_true] at h
    rcases h with h | h
    · exact containsSub_of_isPrefixOf_append h
    · simp [containsSub, ih h]

theorem containsSub_cons_of_head_ne {a : Char} {n : Line} {c : Char} {cs : Line}
    (h : (a == c) = false) :
    containsSub (a :: n) (c :: cs) = containsSub (a :: n) cs := by
  simp [containsSub, isPrefixOf_cons_false h]

/-! Lemmas about the `FL_RE` matcher. -/

theorem matchFLAt_nil : matchFLAt [] = none := by decide

theorem drop_https_fl (X : Line) : (chars "https://fl" ++ X).drop 10 = X := by
  rw [show (10 : Nat) = (chars "https://fl").length from rfl]
  exact List.drop_left _ _

theorem drop_moveonjoy_slash (X : Line) : (chars ".moveonjoy.com/" ++ X).drop 15 = X := by
  rw [show (15 : Nat) = (chars ".moveonjoy.com/").length from rfl]
  exact List.drop_left _ _

theorem matchFLAt_none_of_head_ne {c : Char} (h : c ≠ 'h') (cs : Line) :
    matchFLAt (c :: cs) = none := by
  have hpre : (chars "https://fl").isPrefixOf (c :: cs) = false := by
    rw [show chars "https://fl" = 'h' :: chars "ttps://fl" from rfl]
    exact isPrefixOf_cons_false (beq_eq_false_iff_ne.mpr (Ne.symm h))
  simp [matchFLAt, hpre]

theorem matchFLAt_pos {ds p post : Line}
    (hds : ds ≠ []) (hdig : ∀ c ∈ ds, c.isDigit = true)
    (hp : p ≠ []) (hps : ∀ c ∈ p, pyIsSpace c = false)
    (hpost : ∀ c, post.head? = some c → pyIsSpace c = true) :
    matchFLAt (chars "https://fl" ++ ds ++ chars ".moveonjoy.com/" ++ p ++ post) =
      some ⟨chars "https://fl" ++ ds ++ chars ".moveonjoy.com/" ++ p,
            chars "fl" ++ ds, p, post⟩ := by
  have e1 : chars "https://fl" ++ ds ++ chars ".moveonjoy.com/" ++ p ++ post
      = chars "https://fl" ++ (ds ++ (chars ".moveonjoy.com/" ++ (p ++ post))) := by
    simp [List.append_assoc]
  have hdw := takeWhile_dropWhile_append Char.isDigit ds
      (chars ".moveonjoy.com/" ++ (p ++ post)) hdig
      (by
        intro c hc
        rw [show chars ".moveonjoy.com/" ++ (p ++ post)
              = '.' :: (chars "moveonjoy.com/" ++ (p ++ post)) from rfl] at hc
        simp only [List.head?_cons, Option.some.injEq] at hc
        subst hc
        decide)
  have hpw := takeWhile_dropWhile_append (fun c => !pyIsSpace c) p post
      (by intro c hc; simp [hps c hc])
      (by intro c hc; simp [hpost c hc])
  have hdsE : ds.isEmpty = false := by cases ds with
    | nil => exact absurd rfl hds
    | cons a l => rfl
  have hpE : p.isEmpty = false := by cases p with
    | nil => exact absurd rfl hp
    | cons a l => rfl
  rw [e1]
  simp only [matchFLAt, isPrefixOf_self_append, if_true, drop_https_fl,
    hdw.1, hdw.2, hdsE, isPrefixOf_self_append, drop_moveonjoy_slash,
    hpw.1, hpw.2, hpE, Bool.false_eq_true, if_false]

theorem matchFLAt_decomp {cs : Line} {m : FLMatch} (h : matchFLAt cs = some m) :
    ∃ ds, m.sub = chars "fl" ++ ds ∧ ds ≠ [] ∧ (∀ c ∈ ds, c.isDigit = true) ∧
      m.path ≠ [] ∧ (∀ c ∈ m.path, pyIsSpace c = false) ∧
      (∀ c, m.rest.head? = some c → pyIsSpace c = true) ∧
      m.full = chars "https://fl" ++ ds ++ chars ".moveonjoy.com/" ++ m.path ∧
      cs = m.full ++ m.rest := by
  simp only [matchFLAt] at h
  by_cases h1 : (chars "https://fl").isPrefixOf cs = true
  · rw [if_pos h1] at h
    by_cases h2 : ((cs.drop 10).takeWhile Char.isDigit).isEmpty = true
    · rw [if_pos h2] at h; exact absurd h (by simp)
    · rw [if_neg h2] at h
      by_cases h3 : (chars ".moveonjoy.com/").isPrefixOf
          ((cs.drop 10).dropWhile Char.isDigit) = true
      · rw [if_pos h3] at h
        by_cases h4 : ((((cs.drop 10).dropWhile Char.isDigit).drop 15).takeWhile
            (fun c => !pyIsSpace c)).isEmpty = true
        · rw [if_pos h4] at h; exact absurd h (by simp)
        · rw [if_neg h4] at h
          simp only [Option.some.injEq] at h
          subst h
          dsimp only
          refine ⟨(cs.drop 10).takeWhile Char.isDigit, rfl, ?_, ?_, ?_, ?_, ?_, rfl, ?_⟩
          · intro hnil; rw [hnil] at h2; exact h2 rfl
          · intro c hc; exact mem_takeWhile_eq_true _ _ c hc
          · intro hnil; rw [hnil] at h4; exact h4 rfl
          · intro c hc
            have := mem_takeWhile_eq_true (fun c => !pyIsSpace c) _ c hc
            simpa using this
          · intro c hc
            have := head?_dropWhile (fun c => !pyIsSpace c) _ c hc
            simpa using this
          · have e1 : cs = chars "https://fl" ++ cs.drop 10 := by
              have := eq_append_drop_of_isPrefixOf h1
              rwa [show (chars "https://fl").length = 10 from rfl] at this
            have e2 : cs.drop 10 = (cs.drop 10).takeWhile Char.isDigit ++
                (cs.drop 10).dropWhile Char.isDigit :=
              (List.takeWhile_append_dropWhile _ _).symm
            have e3 : (cs.drop 10).dropWhile Char.isDigit =
                chars ".moveonjoy.com/" ++ ((cs.drop 10).dropWhile Char.isDigit).drop 15 := by
              have := eq_append_drop_of_isPrefixOf h3
              rwa [show (chars ".moveonjoy.com/").length = 15 from rfl] at this
            have e4 : (((cs.drop 10).dropWhile Char.isDigit).drop 15) =
                (((cs.drop 10).dropWhile Char.isDigit).drop 15).takeWhile (fun c => !pyIsSpace c) ++
                (((cs.drop 10).dropWhile Char.isDigit).drop 15).dropWhile (fun c => !pyIsSpace c) :=
              (List.takeWhile_append_dropWhile _ _).symm
            conv_lhs => rw [e1, e2, e3, e4]
            simp [List.append_assoc]
      · rw [if_neg h3] at h; exact absurd h (by simp)
  · rw [if_neg h1] at h; exact absurd h (by simp)

theorem length_chars_https_fl : (chars "https://fl").length = 10 := rfl

theorem length_chars_moveonjoy_slash : (chars ".moveonjoy.com/").length = 15 := rfl

theorem matchFLAt_rest_shorter {cs : Line} {m : FLMatch} (h : matchFLAt cs = some m) :
    m.rest.length < cs.length := by
  obtain ⟨ds, _, hds, _, hp, _, _, hfull, hcs⟩ := matchFLAt_decomp h
  rw [hcs, hfull]
  cases ds with
  | nil => exact absurd rfl hds
  | cons a l =>
    simp [List.length_append, length_chars_https_fl, length_chars_moveonjoy_slash]
    omega

/-! Lemmas about `flSearch`. -/

theorem flSearch_cons_some {c : Char} {cs : Line} {m : FLMatch}
    (h : matchFLAt (c :: cs) = some m) : flSearch (c :: cs) = some m := by
  simp [flSearch, h]

theorem flSearch_cons_none {c : Char} {cs : Line}
    (h : matchFLAt (c :: cs) = none) : flSearch (c :: cs) = flSearch cs := by
  simp [flSearch, h]

theorem flSearch_of_matchFLAt {cs : Line} {m : FLMatch}
    (h : matchFLAt cs = some m) : flSearch cs = some m := by
  cases cs with
  | nil => rw [matchFLAt_nil] at h; exact absurd h (by simp)
  | cons c cs => exact flSearch_cons_some h

theorem flSearch_skip (pre : Line) (hpre : ∀ c ∈ pre, c ≠ 'h') (rest : Line) :
    flSearch (pre ++ rest) = flSearch rest := by
  induction pre with
  | nil => simp
  | cons c cs ih =>
    have hc : c ≠ 'h' := hpre c (by simp)
    rw [List.cons_append, flSearch_cons_none (matchFLAt_none_of_head_ne hc _)]
    exact ih (fun d hd => hpre d (by simp [hd]))

theorem flSearch_decomp :
    ∀ {cs : Line} {m : FLMatch}, flSearch cs = some m →
      ∃ a, cs = a ++ m.full ++ m.rest ∧ matchFLAt (m.full ++ m.rest) = some m := by
  intro cs
  induction cs with
  | nil => intro m h; simp [flSearch] at h
  | cons c cs ih =>
    intro m h
    cases hm : matchFLAt (c :: cs) with
    | some m2 =>
      rw [flSearch_cons_some hm] at h
      simp only [Option.some.injEq] at h
      subst h
      have hd := (matchFLAt_decomp hm).choose_spec.2.2.2.2.2.2.2
      refine ⟨[], by simpa using hd, ?_⟩
      rwa [← hd]
    | none =>
      rw [flSearch_cons_none hm] at h
      obtain ⟨a, ha, hmm⟩ := ih h
      exact ⟨c :: a, by simp [ha], hmm⟩

/-- Any line matched by `FL_RE` contains the `.moveonjoy.com` token. -/
theorem flSearch_some_containsSub {cs : Line} {m : FLMatch}
    (h : flSearch cs = some m) : containsSub (chars ".moveonjoy.com") cs = true := by
  obtain ⟨a, ha, hmm⟩ := flSearch_decomp h
  obtain ⟨ds, _, _, _, _, _, _, hfull, _⟩ := matchFLAt_decomp hmm
  rw [ha, hfull]
  have e : chars "https://fl" ++ ds ++ chars ".moveonjoy.com/" ++ m.path
      = (chars "https://fl" ++ ds) ++ (chars ".moveonjoy.com" ++ ('/' :: m.path)) := by
    rw [show chars ".moveonjoy.com/" = chars ".moveonjoy.com" ++ ['/'] from rfl]
    simp [List.append_assoc]
  rw [e]
  have := containsSub_at (chars ".moveonjoy.com")
    (a ++ (chars "https://fl" ++ ds)) (('/' :: m.path) ++ m.rest)
  simpa [List.append_assoc] using this

/-! Lemmas about `reSubAll`. -/

theorem reSubAllAux_nil (repl : Line) : ∀ fuel, reSubAllAux repl fuel [] = [] := by
  intro fuel
  cases fuel with
  | zero => rfl
  | succ f => simp [reSubAllAux, matchFLAt_nil]

theorem reSubAll_of_match_rest_nil {cs : Line} {m : FLMatch}
    (h : matchFLAt cs = some m) (hrest : m.rest = []) (repl : Line) :
    reSubAll repl cs = repl := by
  unfold reSubAll
  cases cs with
  | nil => rw [matchFLAt_nil] at h; exact absurd h (by simp)
  | cons c cs' =>
    have e : reSubAllAux repl (c :: cs').length (c :: cs')
        = repl ++ reSubAllAux repl cs'.length m.rest := by
      simp [reSubAllAux, h]
    rw [e, hrest, reSubAllAux_nil]
    simp

/-! Lemmas about decimal digits and `flName`. -/

theorem digitChar_isDigit {k : Nat} (h : k < 10) : (Char.ofNat (48 + k)).isDigit = true := by
  interval_cases k <;> decide

theorem natDigitsAux_digits : ∀ (fuel n : Nat), ∀ c ∈ natDigitsAux fuel n, c.isDigit = true := by
  intro fuel
  induction fuel with
  | zero => intro n c hc; simp [natDigitsAux] at hc
  | succ f ih =>
    intro n c hc
    by_cases h : n < 10
    · simp only [natDigitsAux, if_pos h] at hc
      simp only [List.mem_singleton] at hc
      subst hc
      exact digitChar_isDigit h
    · simp only [natDigitsAux, if_neg h] at hc
      rcases List.mem_append.mp hc with h1 | h1
      · exact ih _ c h1
      · simp only [List.mem_singleton] at h1
        subst h1
        exact digitChar_isDigit (Nat.mod_lt _ (by omega))

theorem natToDigits_digits (n : Nat) : ∀ c ∈ natToDigits n, c.isDigit = true :=
  natDigitsAux_digits (n + 1) n

theorem natToDigits_ne_nil (n : Nat) : natToDigits n ≠ [] := by
  unfold natToDigits natDigitsAux
  by_cases h : n < 10 <;> simp [h]

theorem mkUrl_fl (ds path : Line) :
    mkUrl (chars "fl" ++ ds) path
      = chars "https://fl" ++ ds ++ chars ".moveonjoy.com/" ++ path := by
  unfold mkUrl
  rw [show chars "https://fl" = chars "https://" ++ chars "fl" from rfl]
  simp [List.append_assoc]

/-! Further lemmas on the matcher and `reSubAll`, characterizing the rewrite
of a general line around its leftmost match. -/

/-- `matchFLAt` written as an explicit if-tree over its stage computations. -/
theorem matchFLAt_eval (cs : Line) :
    matchFLAt cs =
      if (chars "https://fl").isPrefixOf cs then
        if ((cs.drop 10).takeWhile Char.isDigit).isEmpty then none
        else if (chars ".moveonjoy.com/").isPrefixOf
            ((cs.drop 10).dropWhile Char.isDigit) then
          if ((((cs.drop 10).dropWhile Char.isDigit).drop 15).takeWhile
              (fun c => !pyIsSpace c)).isEmpty then none
          else some ⟨chars "https://fl" ++ (cs.drop 10).takeWhile Char.isDigit ++
                       chars ".moveonjoy.com/" ++
                       (((cs.drop 10).dropWhile Char.isDigit).drop 15).takeWhile
                         (fun c => !pyIsSpace c),
                     chars "fl" ++ (cs.drop 10).takeWhile Char.isDigit,
                     (((cs.drop 10).dropWhile Char.isDigit).drop 15).takeWhile
                       (fun c => !pyIsSpace c),
                     (((cs.drop 10).dropWhile Char.isDigit).drop 15).dropWhile
                       (fun c => !pyIsSpace c)⟩
        else none
      else none := rfl

theorem isPrefixOf_eq_take {l s : Line} : l.isPrefixOf s = true ↔ s.take l.length = l := by
  rw [List.isPrefixOf_iff_prefix, List.prefix_iff_eq_take]
  exact eq_comm

theorem reSubAllAux_fuel (repl : Line) : ∀ (f : Nat) (cs : Line) (g : Nat),
    cs.length ≤ f → cs.length ≤ g →
    reSubAllAux repl f cs = reSubAllAux repl g cs := by
  intro f
  induction f with
  | zero =>
    intro cs g hf _
    have : cs = [] := List.eq_nil_of_length_eq_zero (Nat.le_zero.mp hf)
    subst this
    rw [reSubAllAux_nil, reSubAllAux_nil]
  | succ f ih =>
    intro cs g hf hg
    cases cs with
    | nil => rw [reSubAllAux_nil, reSubAllAux_nil]
    | cons c cs' =>
      cases g with
      | zero => simp at hg
      | succ g' =>
        cases hm : matchFLAt (c :: cs') with
        | some m =>
          have hr := matchFLAt_rest_shorter hm
          simp only [List.length_cons] at hf hg hr
          have e1 : reSubAllAux repl (f + 1) (c :: cs')
              = repl ++ reSubAllAux repl f m.rest := by
            simp [reSubAllAux, hm]
          have e2 : reSubAllAux repl (g' + 1) (c :: cs')
              = repl ++ reSubAllAux repl g' m.rest := by
            simp [reSubAllAux, hm]
          rw [e1, e2, ih m.rest g' (by omega) (by omega)]
        | none =>
          have e1 : reSubAllAux repl (f + 1) (c :: cs')
              = c :: reSubAllAux repl f cs' := by
            simp [reSubAllAux, hm]
          have e2 : reSubAllAux repl (g' + 1) (c :: cs')
              = c :: reSubAllAux repl g' cs' := by
            simp [reSubAllAux, hm]
          simp only [List.length_cons] at hf hg
          rw [e1, e2, ih cs' g' (by omega) (by omega)]

theorem reSubAll_cons_none {c : Char} {cs : Line}
    (h : matchFLAt (c :: cs) = none) (repl : Line) :
    reSubAll repl (c :: cs) = c :: reSubAll repl cs := by
  unfold reSubAll
  simp [reSubAllAux, h, List.length_cons]

theorem reSubAll_match {cs : Line} {m : FLMatch}
    (h : matchFLAt cs = some m) (repl : Line) :
    reSubAll repl cs = repl ++ reSubAll repl m.rest := by
  cases cs with
  | nil => rw [matchFLAt_nil] at h; exact absurd h (by simp)
  | cons c cs' =>
    unfold reSubAll
    have e : reSubAllAux repl (c :: cs').length (c :: cs')
        = repl ++ reSubAllAux repl cs'.length m.rest := by
      simp [reSubAllAux, h, List.length_cons]
    rw [e]
    congr 1
    exact reSubAllAux_fuel repl cs'.length m.rest m.rest.length
      (by have := matchFLAt_rest_shorter h; simp only [List.length_cons] at this; omega)
      (le_refl _)

theorem flSearch_decomp_none :
    ∀ {cs : Line} {m : FLMatch}, flSearch cs = some m →
      ∃ a, cs = a ++ (m.full ++ m.rest) ∧ matchFLAt (m.full ++ m.rest) = some m ∧
        ∀ k, k < a.length → matchFLAt (a.drop k ++ (m.full ++ m.rest)) = none := by
  intro cs
  induction cs with
  | nil => intro m h; simp [flSearch] at h
  | cons c cs ih =>
    intro m h
    cases hm : matchFLAt (c :: cs) with
    | some m2 =>
      rw [flSearch_cons_some hm] at h
      simp only [Option.some.injEq] at h
      subst h
      have hd := (matchFLAt_decomp hm).choose_spec.2.2.2.2.2.2.2
      refine ⟨[], by simpa using hd, by rwa [← hd], ?_⟩
      intro k hk
      simp at hk
    | none =>
      rw [flSearch_cons_none hm] at h
      obtain ⟨a, ha, hmm, hfail⟩ := ih h
      refine ⟨c :: a, by simp [ha], hmm, ?_⟩
      intro k hk
      cases k with
      | zero =>
        simp only [List.drop_zero, List.cons_append]
        rw [← ha]
        exact hm
      | succ k' =>
        simp only [List.length_cons] at hk
        simp only [List.drop_succ_cons]
        exact hfail k' (by omega)

theorem reSubAll_append_of_none (repl : Line) :
    ∀ (a : Line) {z : Line},
      (∀ k, k < a.length → matchFLAt (a.drop k ++ z) = none) →
      reSubAll repl (a ++ z) = a ++ reSubAll repl z := by
  intro a
  induction a with
  | nil => intro z _; simp
  | cons c a' ih =>
    intro z hfail
    have h0 : matchFLAt (c :: (a' ++ z)) = none := by
      have := hfail 0 (by simp)
      simpa using this
    rw [List.cons_append, reSubAll_cons_none h0, ih (fun k hk => by
      have := hfail (k + 1) (by simp only [List.length_cons]; omega)
      simpa using this), List.cons_append]

theorem flSearch_skip_none :
    ∀ (a : Line) {z : Line},
      (∀ k, k < a.length → matchFLAt (a.drop k ++ z) = none) →
      flSearch (a ++ z) = flSearch z := by
  intro a
  induction a with
  | nil => intro z _; simp
  | cons c a' ih =>
    intro z hfail
    have h0 : matchFLAt (c :: (a' ++ z)) = none := by
      have := hfail 0 (by simp)
      simpa using this
    rw [List.cons_append, flSearch_cons_none h0]
    exact ih (fun k hk => by
      have := hfail (k + 1) (by simp only [List.length_cons]; omega)
      simpa using this)

theorem takeWhile_dropWhile_append_head_false (q : Char → Bool) :
    ∀ (xs : Line) {ys : Line}, (∀ c, ys.head? = some c → q c = false) →
      (xs ++ ys).takeWhile q = xs.takeWhile q ∧
      (xs ++ ys).dropWhile q = xs.dropWhile q ++ ys := by
  intro xs
  induction xs with
  | nil =>
    intro ys h
    cases ys with
    | nil => simp
    | cons y ys' =>
      have hy : q y = false := h y rfl
      simp [List.takeWhile_cons, List.dropWhile_cons, hy]
  | cons x xs' ih =>
    intro ys h
    by_cases hx : q x = true
    · constructor
      · rw [List.cons_append, List.takeWhile_cons_of_pos hx,
          List.takeWhile_cons_of_pos hx, (ih h).1]
      · rw [List.cons_append, List.dropWhile_cons_of_pos hx,
          List.dropWhile_cons_of_pos hx, (ih h).2]
    · constructor
      · rw [List.cons_append, List.takeWhile_cons_of_neg hx,
          List.takeWhile_cons_of_neg hx]
      · rw [List.cons_append, List.dropWhile_cons_of_neg hx,
          List.dropWhile_cons_of_neg hx, List.cons_append]

theorem reSubAll_head_space {rest : Line}
    (h : ∀ c, rest.head? = some c → pyIsSpace c = true) (repl : Line) :
    ∀ c, (reSubAll repl rest).head? = some c → pyIsSpace c = true := by
  cases rest with
  | nil =>
    intro c hc
    rw [show reSubAll repl [] = [] from reSubAllAux_nil repl _] at hc
    simp at hc
  | cons s r =>
    have hs : pyIsSpace s = true := h s rfl
    have hsh : s ≠ 'h' := by
      intro he
      subst he
      exact absurd hs (by decide)
    rw [reSubAll_cons_none (matchFLAt_none_of_head_ne hsh r) repl]
    intro c hc
    simp only [List.head?_cons, Option.some.injEq] at hc
    subst hc
    exact hs

/-- A position strictly before an `https://fl` boundary that fails to match
keeps failing whatever follows the boundary: the matcher's outcome at such
a position is determined by the text before the boundary alone. -/
theorem matchFLAt_append_L10_none {b Y1 Y2 : Line} (hb : b ≠ [])
    (h : matchFLAt (b ++ (chars "https://fl" ++ Y1)) = none) :
    matchFLAt (b ++ (chars "https://fl" ++ Y2)) = none := by
  have htake : ∀ Y : Line, (b ++ (chars "https://fl" ++ Y)).take 10
      = b.take 10 ++ (chars "https://fl").take (10 - b.length) := by
    intro Y
    rw [List.take_append_eq_append_take, List.take_append_eq_append_take]
    have h0 : 10 - b.length - (chars "https://fl").length = 0 := by
      rw [length_chars_https_fl]
      omega
    rw [h0, List.take_zero, List.append_nil]
  by_cases hp2 : (chars "https://fl").isPrefixOf (b ++ (chars "https://fl" ++ Y2)) = true
  · have hwin : b.take 10 ++ (chars "https://fl").take (10 - b.length)
        = chars "https://fl" := by
      have := isPrefixOf_eq_take.mp hp2
      rw [length_chars_https_fl, htake Y2] at this
      exact this
    have hp1 : (chars "https://fl").isPrefixOf (b ++ (chars "https://fl" ++ Y1)) = true := by
      rw [isPrefixOf_eq_take, length_chars_https_fl, htake Y1]
      exact hwin
    rcases Nat.lt_or_ge b.length 10 with hlen | hlen
    · -- a short prefix before the boundary: the digit run after the
      -- literal is empty, so the match fails in both strings
      have hdropY : (b ++ (chars "https://fl" ++ Y2)).drop 10
          = (chars "https://fl").drop (10 - b.length) ++ Y2 := by
        rw [List.drop_append_eq_append_drop, List.drop_append_eq_append_drop]
        have hb10 : b.drop 10 = [] := by
          rw [List.drop_eq_nil_iff]
          omega
        have hY0 : 10 - b.length - (chars "https://fl").length = 0 := by
          rw [length_chars_https_fl]
          omega
        rw [hb10, hY0, List.drop_zero, List.nil_append]
      have hbpos : 0 < b.length := List.length_pos.mpr hb
      have hne10 : ((chars "https://fl").drop (10 - b.length)).takeWhile Char.isDigit
          = [] := by
        have hall : ∀ n, n < 10 → 0 < n →
            ((chars "https://fl").drop n).takeWhile Char.isDigit = [] := by decide
        exact hall (10 - b.length) (by omega) (by omega)
      have hdig2 : ((chars "https://fl").drop (10 - b.length) ++ Y2).takeWhile
          Char.isDigit = [] := by
        cases hA2 : (chars "https://fl").drop (10 - b.length) with
        | nil =>
          have := congrArg List.length hA2
          simp only [List.length_drop, length_chars_https_fl, List.length_nil] at this
          omega
        | cons a as =>
          rw [hA2] at hne10
          have ha : ¬ a.isDigit = true := by
            intro hq
            rw [List.takeWhile_cons_of_pos hq] at hne10
            exact absurd hne10 (by simp)
          rw [List.cons_append, List.takeWhile_cons_of_neg ha]
      rw [matchFLAt_eval, if_pos hp2, hdropY, hdig2, if_pos (by simp)]
    · -- at least ten characters before the boundary
      have hb10 : b.take 10 = chars "https://fl" := by
        have h0 : 10 - b.length = 0 := by omega
        rw [h0, List.take_zero, List.append_nil] at hwin
        exact hwin
      have hdropY : ∀ Y : Line, (b ++ (chars "https://fl" ++ Y)).drop 10
          = b.drop 10 ++ (chars "https://fl" ++ Y) := by
        intro Y
        rw [List.drop_append_eq_append_drop]
        have : 10 - b.length = 0 := by omega
        rw [this, List.drop_zero]
      have hdsY : ∀ Y : Line,
          (b.drop 10 ++ (chars "https://fl" ++ Y)).takeWhile Char.isDigit
            = (b.drop 10).takeWhile Char.isDigit ∧
          (b.drop 10 ++ (chars "https://fl" ++ Y)).dropWhile Char.isDigit
            = (b.drop 10).dropWhile Char.isDigit ++ (chars "https://fl" ++ Y) := by
        intro Y
        refine takeWhile_dropWhile_append_head_false Char.isDigit (b.drop 10) ?_
        intro c hc
        rw [show chars "https://fl" ++ Y = 'h' :: (chars "ttps://fl" ++ Y) from rfl] at hc
        simp only [List.head?_cons, Option.some.injEq] at hc
        subst hc
        decide
      by_cases hds : ((b.drop 10).takeWhile Char.isDigit).isEmpty = true
      · rw [matchFLAt_eval, if_pos hp2, hdropY Y2, (hdsY Y2).1, if_pos hds]
      · by_cases hp3 : (chars ".moveonjoy.com/").isPrefixOf
            ((b.drop 10).dropWhile Char.isDigit ++ (chars "https://fl" ++ Y2)) = true
        · -- the dot-literal check passes: it lies entirely before the boundary
          have hc15 : 15 ≤ ((b.drop 10).dropWhile Char.isDigit).length := by
            by_contra hlt
            have htk := isPrefixOf_eq_take.mp hp3
            rw [length_chars_moveonjoy_slash] at htk
            have hidx : (((b.drop 10).dropWhile Char.isDigit ++
                (chars "https://fl" ++ Y2)).take 15)[
                ((b.drop 10).dropWhile Char.isDigit).length]? = some 'h' := by
              rw [List.getElem?_take, if_pos (by omega),
                List.getElem?_append_right (le_refl _), Nat.sub_self]
              rw [show chars "https://fl" ++ Y2 = 'h' :: (chars "ttps://fl" ++ Y2) from rfl]
              rfl
            rw [htk] at hidx
            have : 'h' ∈ chars ".moveonjoy.com/" := List.getElem?_mem hidx
            exact absurd this (by decide)
          have htake15 : ∀ Y : Line,
              ((b.drop 10).dropWhile Char.isDigit ++ (chars "https://fl" ++ Y)).take 15
                = ((b.drop 10).dropWhile Char.isDigit).take 15 := by
            intro Y
            rw [List.take_append_eq_append_take]
            have : 15 - ((b.drop 10).dropWhile Char.isDigit).length = 0 := by omega
            rw [this, List.take_zero, List.append_nil]
          have hctake : ((b.drop 10).dropWhile Char.isDigit).take 15
              = chars ".moveonjoy.com/" := by
            have := isPrefixOf_eq_take.mp hp3
            rw [length_chars_moveonjoy_slash, htake15 Y2] at this
            exact this
          have hp3' : (chars ".moveonjoy.com/").isPrefixOf
              ((b.drop 10).dropWhile Char.isDigit ++ (chars "https://fl" ++ Y1)) = true := by
            rw [isPrefixOf_eq_take, length_chars_moveonjoy_slash, htake15 Y1]
            exact hctake
          have hdrop15 : ∀ Y : Line,
              ((b.drop 10).dropWhile Char.isDigit ++ (chars "https://fl" ++ Y)).drop 15
                = ((b.drop 10).dropWhile Char.isDigit).drop 15 ++
                    (chars "https://fl" ++ Y) := by
            intro Y
            rw [List.drop_append_eq_append_drop]
            have : 15 - ((b.drop 10).dropWhile Char.isDigit).length = 0 := by omega
            rw [this, List.drop_zero]
          cases hc2 : ((b.drop 10).dropWhile Char.isDigit).drop 15 with
          | nil =>
            -- the whole match skeleton would sit before the boundary and the
            -- path would start at the boundary's nonspace 'h': the first
            -- string matches too, contradicting the hypothesis
            exfalso
            rw [matchFLAt_eval, if_pos hp1, hdropY Y1, (hdsY Y1).1, (hdsY Y1).2,
              if_neg hds, if_pos hp3', hdrop15 Y1, hc2, List.nil_append,
              show chars "https://fl" ++ Y1 = 'h' :: (chars "ttps://fl" ++ Y1) from rfl,
              @List.takeWhile_cons_of_pos Char (fun c => !pyIsSpace c) 'h'
                (chars "ttps://fl" ++ Y1) (by decide)] at h
            rw [if_neg (by simp)] at h
            exact absurd h (by simp)
          | cons x c2' =>
            by_cases hx : (!pyIsSpace x) = true
            · exfalso
              rw [matchFLAt_eval, if_pos hp1, hdropY Y1, (hdsY Y1).1, (hdsY Y1).2,
                if_neg hds, if_pos hp3', hdrop15 Y1, hc2, List.cons_append,
                @List.takeWhile_cons_of_pos Char (fun c => !pyIsSpace c) x
                  (c2' ++ (chars "https://fl" ++ Y1)) hx] at h
              rw [if_neg (by simp)] at h
              exact absurd h (by simp)
            · rw [matchFLAt_eval, if_pos hp2, hdropY Y2, (hdsY Y2).1, (hdsY Y2).2,
                if_neg hds, if_pos hp3, hdrop15 Y2, hc2, List.cons_append,
                @List.takeWhile_cons_of_neg Char (fun c => !pyIsSpace c) x
                  (c2' ++ (chars "https://fl" ++ Y2)) hx]
              rw [if_pos (by simp)]
        · rw [matchFLAt_eval, if_pos hp2, hdropY Y2, (hdsY Y2).1, (hdsY Y2).2,
            if_neg hds, if_neg hp3]
  · have hfalse : (chars "https://fl").isPrefixOf (b ++ (chars "https://fl" ++ Y2))
        = false := Bool.eq_false_iff.mpr hp2
    rw [matchFLAt_eval, if_neg (by rw [hfalse]; simp)]

/-- Rewriting a matched line with the main URL built from its own path:
the prefix before the leftmost match is preserved, the match becomes the
main URL, the tail is rewritten in turn, and the rewritten line re-parses
with the main's mirror token. -/
theorem reSubAll_flSearch_decomp {line : Line} {m : FLMatch}
    (hfs : flSearch line = some m)
    {ds_cm : Line} (hdsne : ds_cm ≠ []) (hdig_cm : ∀ c ∈ ds_cm, c.isDigit = true) :
    ∃ a, line = a ++ m.full ++ m.rest ∧
      reSubAll (mkUrl (chars "fl" ++ ds_cm) m.path) line
        = a ++ mkUrl (chars "fl" ++ ds_cm) m.path
            ++ reSubAll (mkUrl (chars "fl" ++ ds_cm) m.path) m.rest ∧
      (flSearch (reSubAll (mkUrl (chars "fl" ++ ds_cm) m.path) line)).map
          (fun mm => mm.sub) = some (chars "fl" ++ ds_cm) := by
  obtain ⟨a, hlineEq, hmm, hfail⟩ := flSearch_decomp_none hfs
  obtain ⟨ds, hsub, hds, hdig, hpne, hps, hrest, hfull, _⟩ := matchFLAt_decomp hmm
  have hX := reSubAll_head_space hrest (mkUrl (chars "fl" ++ ds_cm) m.path)
  have hshape1 : m.full ++ m.rest = chars "https://fl"
      ++ (ds ++ (chars ".moveonjoy.com/" ++ (m.path ++ m.rest))) := by
    rw [hfull]
    simp [List.append_assoc]
  have hshape2 : mkUrl (chars "fl" ++ ds_cm) m.path
        ++ reSubAll (mkUrl (chars "fl" ++ ds_cm) m.path) m.rest
      = chars "https://fl" ++ (ds_cm ++ (chars ".moveonjoy.com/"
          ++ (m.path ++ reSubAll (mkUrl (chars "fl" ++ ds_cm) m.path) m.rest))) := by
    rw [mkUrl_fl]
    simp [List.append_assoc]
  have hfail' : ∀ k, k < a.length →
      matchFLAt (a.drop k ++ (mkUrl (chars "fl" ++ ds_cm) m.path
        ++ reSubAll (mkUrl (chars "fl" ++ ds_cm) m.path) m.rest)) = none := by
    intro k hk
    have hbne : a.drop k ≠ [] := by
      intro hnil
      rw [List.drop_eq_nil_iff] at hnil
      omega
    have h1 := hfail k hk
    rw [hshape1] at h1
    rw [hshape2]
    exact matchFLAt_append_L10_none hbne h1
  have hre : reSubAll (mkUrl (chars "fl" ++ ds_cm) m.path) line
      = a ++ (mkUrl (chars "fl" ++ ds_cm) m.path
          ++ reSubAll (mkUrl (chars "fl" ++ ds_cm) m.path) m.rest) := by
    rw [hlineEq, reSubAll_append_of_none _ a hfail, reSubAll_match hmm]
  have hmrepl : matchFLAt (mkUrl (chars "fl" ++ ds_cm) m.path
        ++ reSubAll (mkUrl (chars "fl" ++ ds_cm) m.path) m.rest)
      = some ⟨chars "https://fl" ++ ds_cm ++ chars ".moveonjoy.com/" ++ m.path,
              chars "fl" ++ ds_cm, m.path,
              reSubAll (mkUrl (chars "fl" ++ ds_cm) m.path) m.rest⟩ := by
    have := @matchFLAt_pos ds_cm m.path
      (reSubAll (mkUrl (chars "fl" ++ ds_cm) m.path) m.rest) hdsne hdig_cm hpne hps hX
    rw [mkUrl_fl]
    rw [show chars "https://fl" ++ ds_cm ++ chars ".moveonjoy.com/" ++ m.path
          ++ reSubAll (mkUrl (chars "fl" ++ ds_cm) m.path) m.rest
        = (chars "https://fl" ++ ds_cm ++ chars ".moveonjoy.com/" ++ m.path)
          ++ reSubAll (mkUrl (chars "fl" ++ ds_cm) m.path) m.rest from by
      simp [List.append_assoc]] at this
    exact this
  refine ⟨a, by rw [hlineEq, ← List.append_assoc], ?_, ?_⟩
  · rw [hre, ← List.append_assoc]
  · rw [hre, flSearch_skip_none a hfail', flSearch_of_matchFLAt hmrepl]
    rfl

/-! The digit-run mismatch argument: two distinct all-digit runs followed
by a dot can never align as a whole-string match. -/

theorem isPrefixOf_digits_dot {dm dk : Line} (u v : Line) (hne : dm ≠ dk)
    (hm : ∀ c ∈ dm, c.isDigit = true) (hk : ∀ c ∈ dk, c.isDigit = true) :
    (dm ++ '.' :: u).isPrefixOf (dk ++ '.' :: v) = false := by
  induction dm generalizing dk with
  | nil =>
    cases dk with
    | nil => exact absurd rfl hne
    | cons d k =>
      have hd := hk d (by simp)
      have hne2 : ('.' == d) = false := by
        apply beq_eq_false_iff_ne.mpr
        intro e
        rw [← e] at hd
        exact absurd hd (by decide)
      simpa using isPrefixOf_cons_false hne2
  | cons a m ih =>
    cases dk with
    | nil =>
      have ha := hm a (by simp)
      have hne2 : (a == '.') = false := by
        apply beq_eq_false_iff_ne.mpr
        intro e
        rw [e] at ha
        exact absurd ha (by decide)
      simpa using isPrefixOf_cons_false hne2
    | cons d k =>
      by_cases had : a = d
      · subst had
        have hmk : m ≠ k := fun e => hne (by rw [e])
        have := ih hmk (fun c hc => hm c (by simp [hc]))
          (fun c hc => hk c (by simp [hc]))
        simp [List.isPrefixOf, this]
      · have hne2 : (a == d) = false := beq_eq_false_iff_ne.mpr had
        simpa using isPrefixOf_cons_false hne2

theorem containsSub_skip_all {a : Char} {n : Line} :
    ∀ (xs R : Line), (∀ c ∈ xs, (a == c) = false) →
      containsSub (a :: n) (xs ++ R) = containsSub (a :: n) R := by
  intro xs
  induction xs with
  | nil => intro R _; simp
  | cons c cs ih =>
    intro R h
    rw [List.cons_append, containsSub_cons_of_head_ne (h c (by simp))]
    exact ih R (fun d hd => h d (by simp [hd]))

/-- The mirror-host token `fl<dm>.moveonjoy.com` does not occur in a bare
mirror URL on a different subdomain `fl<dk>` whose path is free of the
`.moveonjoy.com` token. -/
theorem token_not_in_bare {dm dk p : Line} (hne : dm ≠ dk)
    (hm : ∀ c ∈ dm, c.isDigit = true) (hk : ∀ c ∈ dk, c.isDigit = true)
    (hptok : containsSub (chars ".moveonjoy.com") p = false) :
    containsSub (chars "fl" ++ dm ++ chars ".moveonjoy.com")
      (chars "https://fl" ++ dk ++ chars ".moveonjoy.com/" ++ p) = false := by
  have htok : chars "fl" ++ dm ++ chars ".moveonjoy.com"
      = 'f' :: 'l' :: (dm ++ chars ".moveonjoy.com") := by
    rw [show chars "fl" = ['f', 'l'] from rfl]
    simp
  have htgt : chars "https://fl" ++ dk ++ chars ".moveonjoy.com/" ++ p
      = chars "https://" ++ ('f' :: 'l' :: (dk ++ (chars ".moveonjoy.com/" ++ p))) := by
    rw [show chars "https://fl" = chars "https://" ++ ['f', 'l'] from rfl]
    simp [List.append_assoc]
  rw [htok, htgt]
  rw [containsSub_skip_all (chars "https://") _ (by decide)]
  have hpre_false : ('f' :: 'l' :: (dm ++ chars ".moveonjoy.com")).isPrefixOf
      ('f' :: 'l' :: (dk ++ (chars ".moveonjoy.com/" ++ p))) = false := by
    have hdd : (dm ++ '.' :: chars "moveonjoy.com").isPrefixOf
        (dk ++ '.' :: (chars "moveonjoy.com/" ++ p)) = false :=
      isPrefixOf_digits_dot _ _ hne hm hk
    have e1 : dm ++ chars ".moveonjoy.com" = dm ++ '.' :: chars "moveonjoy.com" := rfl
    have e2 : dk ++ (chars ".moveonjoy.com/" ++ p) = dk ++ '.' :: (chars "moveonjoy.com/" ++ p) := rfl
    simp [List.isPrefixOf, e1, e2, hdd]
  have hstep : containsSub ('f' :: 'l' :: (dm ++ chars ".moveonjoy.com"))
      ('f' :: 'l' :: (dk ++ (chars ".moveonjoy.com/" ++ p)))
      = containsSub ('f' :: 'l' :: (dm ++ chars ".moveonjoy.com"))
        ('l' :: (dk ++ (chars ".moveonjoy.com/" ++ p))) := by
    simp [containsSub, hpre_false]
  rw [hstep]
  rw [containsSub_cons_of_head_ne (by decide)]
  rw [containsSub_skip_all dk _ (fun c hc => by
    apply beq_eq_false_iff_ne.mpr
    intro e
    have := hk c hc
    rw [← e] at this
    exact absurd this (by decide))]
  rw [containsSub_skip_all (chars ".moveonjoy.com/") _ (by decide)]
  cases hv : containsSub ('f' :: 'l' :: (dm ++ chars ".moveonjoy.com")) p with
  | false => rfl
  | true =>
    have e : 'f' :: 'l' :: (dm ++ chars ".moveonjoy.com")
        = ('f' :: 'l' :: dm) ++ chars ".moveonjoy.com" := by simp
    rw [e] at hv
    have := containsSub_mono hv
    rw [this] at hptok
    exact absurd hptok (by simp)

/-! Lemmas about `pyEnum` and the enumeration helpers. -/

theorem pyEnumFrom_ge : ∀ (l : List Line) (k : Nat) (e : Nat × Line),
    e ∈ pyEnumFrom k l → k ≤ e.1 := by
  intro l
  induction l with
  | nil => intro k e h; simp [pyEnumFrom] at h
  | cons a t ih =>
    intro k e h
    simp only [pyEnumFrom, List.mem_cons] at h
    rcases h with h | h
    · subst h; exact Nat.le_refl _
    · exact Nat.le_of_succ_le (ih (k + 1) e h)

theorem pyEnumFrom_pairwise : ∀ (l : List Line) (k : Nat),
    (pyEnumFrom k l).Pairwise (fun x y => x.1 < y.1) := by
  intro l
  induction l with
  | nil => intro k; simp [pyEnumFrom]
  | cons a t ih =>
    intro k
    simp only [pyEnumFrom, List.pairwise_cons]
    exact ⟨fun e he => Nat.lt_of_lt_of_le (Nat.lt_succ_self k) (pyEnumFrom_ge t (k + 1) e he),
      ih (k + 1)⟩

theorem pyEnumFrom_mem_getElem? : ∀ (l : List Line) (k : Nat) (e : Nat × Line),
    e ∈ pyEnumFrom k l → l[e.1 - k]? = some e.2 := by
  intro l
  induction l with
  | nil => intro k e h; simp [pyEnumFrom] at h
  | cons a t ih =>
    intro k e h
    simp only [pyEnumFrom, List.mem_cons] at h
    rcases h with h | h
    · subst h; simp
    · have hk := pyEnumFrom_ge t (k + 1) e h
      have := ih (k + 1) e h
      have he : e.1 - k = (e.1 - (k + 1)) + 1 := by omega
      rw [he]
      simpa using this

theorem pyEnumFrom_of_getElem? : ∀ (l : List Line) (k j : Nat) (a : Line),
    l[j]? = some a → (k + j, a) ∈ pyEnumFrom k l := by
  intro l
  induction l with
  | nil => intro k j a h; simp at h
  | cons b t ih =>
    intro k j a h
    cases j with
    | zero => simp at h; subst h; simp [pyEnumFrom]
    | succ j' =>
      simp only [List.getElem?_cons_succ] at h
      have := ih (k + 1) j' a h
      simp only [pyEnumFrom, List.mem_cons]
      right
      have e : k + (j' + 1) = (k + 1) + j' := by omega
      rwa [e]

theorem pyEnum_mem_getElem? {lines : List Line} {e : Nat × Line}
    (h : e ∈ pyEnum lines) : lines[e.1]? = some e.2 := by
  have := pyEnumFrom_mem_getElem? lines 0 e h
  simpa using this

theorem pyEnum_of_getElem? {lines : List Line} {j : Nat} {a : Line}
    (h : lines[j]? = some a) : (j, a) ∈ pyEnum lines := by
  have := pyEnumFrom_of_getElem? lines 0 j a h
  simpa using this

theorem pairwise_filterMap_fst {τ : Type} (f : Nat × Line → Option (Nat × τ))
    (hf : ∀ e b, f e = some b → b.1 = e.1) :
    ∀ (l : List (Nat × Line)), l.Pairwise (fun x y => x.1 < y.1) →
      (l.filterMap f).Pairwise (fun x y => x.1 < y.1) := by
  intro l
  induction l with
  | nil => intro _; simp
  | cons a t ih =>
    intro hp
    rw [List.pairwise_cons] at hp
    rw [List.filterMap_cons]
    cases hfa : f a with
    | none => exact ih hp.2
    | some b =>
      rw [List.pairwise_cons]
      refine ⟨?_, ih hp.2⟩
      intro b2 hb2
      obtain ⟨a2, ha2, hfa2⟩ := List.mem_filterMap.mp hb2
      rw [hf a b hfa, hf a2 b2 hfa2]
      exact hp.1 a2 ha2

theorem enumerate_using_fst_eq (sub : Line) :
    ∀ (e : Nat × Line) (b : Nat × Line × Line),
      (if containsSub (chars "http") e.2 && containsSub (sub ++ chars ".moveonjoy.com") e.2 then
        match flSearch e.2 with
        | some m => some (e.1, m.full, m.path)
        | none => none
      else none) = some b → b.1 = e.1 := by
  intro e b h
  by_cases hc : (containsSub (chars "http") e.2 &&
      containsSub (sub ++ chars ".moveonjoy.com") e.2) = true
  · rw [if_pos hc] at h
    cases hm : flSearch e.2 with
    | some m => rw [hm] at h; simp only [Option.some.injEq] at h; rw [← h]
    | none => rw [hm] at h; exact absurd h (by simp)
  · rw [if_neg hc] at h; exact absurd h (by simp)

theorem enumerate_using_pairwise (lines : List Line) (sub : Line) :
    (enumerate_lines_using_subdomain lines sub).Pairwise (fun x y => x.1 < y.1) :=
  pairwise_filterMap_fst _ (enumerate_using_fst_eq sub) _ (pyEnumFrom_pairwise lines 0)

theorem enumerate_all_fst_eq :
    ∀ (e : Nat × Line) (b : Nat × Line × Line × Line),
      (if containsSub (chars "http") e.2 && containsSub (chars "moveonjoy.com") e.2 then
        match flSearch e.2 with
        | some m => some (e.1, m.full, m.path, m.sub)
        | none => none
      else none) = some b → b.1 = e.1 := by
  intro e b h
  by_cases hc : (containsSub (chars "http") e.2 &&
      containsSub (chars "moveonjoy.com") e.2) = true
  · rw [if_pos hc] at h
    cases hm : flSearch e.2 with
    | some m => rw [hm] at h; simp only [Option.some.injEq] at h; rw [← h]
    | none => rw [hm] at h; exact absurd h (by simp)
  · rw [if_neg hc] at h; exact absurd h (by simp)

theorem enumerate_all_pairwise (lines : List Line) :
    (enumerate_all_fl_lines lines).Pairwise (fun x y => x.1 < y.1) :=
  pairwise_filterMap_fst _ enumerate_all_fst_eq _ (pyEnumFrom_pairwise lines 0)

theorem mem_enumerate_using {lines : List Line} {sub : Line} {i : Nat} {full path : Line} :
    (i, full, path) ∈ enumerate_lines_using_subdomain lines sub ↔
      ∃ line, lines[i]? = some line ∧
        containsSub (chars "http") line = true ∧
        containsSub (sub ++ chars ".moveonjoy.com") line = true ∧
        ∃ m, flSearch line = some m ∧ m.full = full ∧ m.path = path := by
  constructor
  · intro h
    obtain ⟨e, he, hfe⟩ := List.mem_filterMap.mp h
    by_cases hc : (containsSub (chars "http") e.2 &&
        containsSub (sub ++ chars ".moveonjoy.com") e.2) = true
    · rw [if_pos hc] at hfe
      cases hm : flSearch e.2 with
      | some m =>
        rw [hm] at hfe
        simp only [Option.some.injEq] at hfe
        have h1 : e.1 = i := congrArg Prod.fst hfe
        have h2 : m.full = full := congrArg (fun x => x.2.1) hfe
        have h3 : m.path = path := congrArg (fun x => x.2.2) hfe
        rw [Bool.and_eq_true] at hc
        refine ⟨e.2, ?_, hc.1, hc.2, m, hm, h2, h3⟩
        rw [← h1]
        exact pyEnum_mem_getElem? he
      | none => rw [hm] at hfe; exact absurd hfe (by simp)
    · rw [if_neg hc] at hfe; exact absurd hfe (by simp)
  · intro ⟨line, hline, h1, h2, m, hm, hfull, hpath⟩
    apply List.mem_filterMap.mpr
    refine ⟨(i, line), pyEnum_of_getElem? hline, ?_⟩
    rw [if_pos (by rw [h1, h2]; rfl), hm]
    simp [hfull, hpath]

theorem mem_enumerate_all {lines : List Line} {i : Nat} {full path sub : Line} :
    (i, full, path, sub) ∈ enumerate_all_fl_lines lines ↔
      ∃ line, lines[i]? = some line ∧
        containsSub (chars "http") line = true ∧
        containsSub (chars "moveonjoy.com") line = true ∧
        ∃ m, flSearch line = some m ∧ m.full = full ∧ m.path = path ∧ m.sub = sub := by
  constructor
  · intro h
    obtain ⟨e, he, hfe⟩ := List.mem_filterMap.mp h
    by_cases hc : (containsSub (chars "http") e.2 &&
        containsSub (chars "moveonjoy.com") e.2) = true
    · rw [if_pos hc] at hfe
      cases hm : flSearch e.2 with
      | some m =>
        rw [hm] at hfe
        simp only [Option.some.injEq] at hfe
        have h1 : e.1 = i := congrArg Prod.fst hfe
        have h2 : m.full = full := congrArg (fun x => x.2.1) hfe
        have h3 : m.path = path := congrArg (fun x => x.2.2.1) hfe
        have h4 : m.sub = sub := congrArg (fun x => x.2.2.2) hfe
        rw [Bool.and_eq_true] at hc
        refine ⟨e.2, ?_, hc.1, hc.2, m, hm, h2, h3, h4⟩
        rw [← h1]
        exact pyEnum_mem_getElem? he
      | none => rw [hm] at hfe; exact absurd hfe (by simp)
    · rw [if_neg hc] at hfe; exact absurd hfe (by simp)
  · intro ⟨line, hline, h1, h2, m, hm, hfull, hpath, hsub⟩
    apply List.mem_filterMap.mpr
    refine ⟨(i, line), pyEnum_of_getElem? hline, ?_⟩
    rw [if_pos (by rw [h1, h2]; rfl), hm]
    simp [hfull, hpath, hsub]

/-! Fold lemmas for the failover pass. -/

theorem failover_foldl_untouched (probe : Line → Bool) (cm : Line) :
    ∀ (tf : List (Nat × Line)) (acc : FailoverResult) (j : Nat),
      (∀ e ∈ tf, e.1 = j → find_fallback_for_path_parallel probe e.2 (some cm) = none) →
      ((tf.foldl (failoverStep probe cm) acc).lines)[j]? = acc.lines[j]? := by
  intro tf
  induction tf with
  | nil => intro acc j _; rfl
  | cons e t ih =>
    intro acc j hj
    rw [List.foldl_cons]
    rw [ih (failoverStep probe cm acc e) j (fun e2 he2 => hj e2 (by simp [he2]))]
    cases hff : find_fallback_for_path_parallel probe e.2 (some cm) with
    | some fb =>
      have hne : e.1 ≠ j := by
        intro ee
        rw [hj e (by simp) ee] at hff
        exact absurd hff (by simp)
      simp only [failoverStep, hff]
      exact List.getElem?_set_ne hne
    | none => simp only [failoverStep, hff]

theorem failover_foldl_changed (probe : Line → Bool) (cm : Line) :
    ∀ (tf : List (Nat × Line)) (acc : FailoverResult),
      (tf.foldl (failoverStep probe cm) acc).changed
        = (acc.changed ||
            tf.any (fun e => (find_fallback_for_path_parallel probe e.2 (some cm)).isSome)) := by
  intro tf
  induction tf with
  | nil => intro acc; simp
  | cons e t ih =>
    intro acc
    rw [List.foldl_cons, ih]
    cases hff : find_fallback_for_path_parallel probe e.2 (some cm) with
    | some fb => simp [failoverStep, hff]
    | none => simp [failoverStep, hff]

theorem failover_foldl_degraded_mono (probe : Line → Bool) (cm : Line) :
    ∀ (tf : List (Nat × Line)) (acc : FailoverResult) (d : Nat × Line),
      d ∈ acc.degraded → d ∈ (tf.foldl (failoverStep probe cm) acc).degraded := by
  intro tf
  induction tf with
  | nil => intro acc d hd; exact hd
  | cons e t ih =>
    intro acc d hd
    rw [List.foldl_cons]
    apply ih
    cases hff : find_fallback_for_path_parallel probe e.2 (some cm) with
    | some fb => simpa [failoverStep, hff] using hd
    | none => simp [failoverStep, hff, hd]

theorem failover_foldl_degraded_mem (probe : Line → Bool) (cm : Line) :
    ∀ (tf : List (Nat × Line)) (acc : FailoverResult) (e : Nat × Line),
      e ∈ tf → find_fallback_for_path_parallel probe e.2 (some cm) = none →
      e ∈ (tf.foldl (failoverStep probe cm) acc).degraded := by
  intro tf
  induction tf with
  | nil => intro acc e he _; simp at he
  | cons e2 t ih =>
    intro acc e he hff
    rw [List.foldl_cons]
    rcases List.mem_cons.mp he with he | he
    · subst he
      apply failover_foldl_degraded_mono
      simp [failoverStep, hff]
    · exact ih _ e he hff

theorem failover_foldl_set (probe : Line → Bool) (cm : Line) :
    ∀ (tf : List (Nat × Line)) (acc : FailoverResult) (e : Nat × Line) (fb : Line),
      tf.Pairwise (fun x y => x.1 ≠ y.1) → e ∈ tf →
      find_fallback_for_path_parallel probe e.2 (some cm) = some fb →
      ((tf.foldl (failoverStep probe cm) acc).lines)[e.1]?
        = (acc.lines[e.1]?).map (fun line => reSubAll (mkUrl fb e.2) line) := by
  intro tf
  induction tf with
  | nil => intro _ _ _ _ h; simp at h
  | cons e2 t ih =>
    intro acc e fb hpw hmem hff
    rw [List.pairwise_cons] at hpw
    rw [List.foldl_cons]
    rcases List.mem_cons.mp hmem with he | he
    · subst he
      rw [failover_foldl_untouched probe cm t _ e.1
        (fun e3 h3 heq => absurd heq (Ne.symm (hpw.1 e3 h3)))]
      simp only [failoverStep, hff]
      cases hget : acc.lines[e.1]? with
      | some line =>
        have hgd : acc.lines.getD e.1 [] = line := by
          rw [List.getD_eq_getElem?_getD, hget]
          rfl
        rw [hgd, List.getElem?_set_self', hget]
        rfl
      | none =>
        rw [List.getElem?_set_self', hget]
        rfl
    · have hne : e2.1 ≠ e.1 := hpw.1 e he
      rw [ih (failoverStep probe cm acc e2) e fb hpw.2 he hff]
      cases hff2 : find_fallback_for_path_parallel probe e2.2 (some cm) with
      | some fb2 =>
        simp only [failoverStep, hff2]
        rw [List.getElem?_set_ne hne]
      | none => simp only [failoverStep, hff2]

/-! Fold lemmas for the restore pass. -/

theorem restore_foldl_untouched (probe : Line → Bool) (cm : Line) :
    ∀ (entries : List (Nat × Line)) (acc : RestoreResult) (j : Nat),
      (∀ e ∈ entries, e.1 = j → probe (mkUrl cm e.2) = false) →
      ((entries.foldl (restoreStep probe cm) acc).lines)[j]? = acc.lines[j]? := by
  intro entries
  induction entries with
  | nil => intro acc j _; rfl
  | cons e t ih =>
    intro acc j hj
    rw [List.foldl_cons]
    rw [ih (restoreStep probe cm acc e) j (fun e2 he2 => hj e2 (by simp [he2]))]
    by_cases hp : probe (mkUrl cm e.2) = true
    · have hne : e.1 ≠ j := by
        intro ee
        rw [hj e (by simp) ee] at hp
        exact absurd hp (by simp)
      simp only [restoreStep, hp, if_true]
      exact List.getElem?_set_ne hne
    · simp only [restoreStep, Bool.eq_false_iff.mpr hp, Bool.false_eq_true, if_false]

theorem restore_foldl_changed (probe : Line → Bool) (cm : Line) :
    ∀ (entries : List (Nat × Line)) (acc : RestoreResult),
      (entries.foldl (restoreStep probe cm) acc).changed
        = (acc.changed || entries.any (fun e => probe (mkUrl cm e.2))) := by
  intro entries
  induction entries with
  | nil => intro acc; simp
  | cons e t ih =>
    intro acc
    rw [List.foldl_cons, ih]
    by_cases hp : probe (mkUrl cm e.2) = true
    · simp [restoreStep, hp]
    · simp [restoreStep, Bool.eq_false_iff.mpr hp]

theorem restore_foldl_restored_mono (probe : Line → Bool) (cm : Line) :
    ∀ (entries : List (Nat × Line)) (acc : RestoreResult) (d : Nat × Line),
      d ∈ acc.restored → d ∈ (entries.foldl (restoreStep probe cm) acc).restored := by
  intro entries
  induction entries with
  | nil => intro acc d hd; exact hd
  | cons e t ih =>
    intro acc d hd
    rw [List.foldl_cons]
    apply ih
    by_cases hp : probe (mkUrl cm e.2) = true
    · simp [restoreStep, hp, hd]
    · simpa [restoreStep, Bool.eq_false_iff.mpr hp] using hd

theorem restore_foldl_restored_mem (probe : Line → Bool) (cm : Line) :
    ∀ (entries : List (Nat × Line)) (acc : RestoreResult) (e : Nat × Line),
      e ∈ entries → probe (mkUrl cm e.2) = true →
      e ∈ (entries.foldl (restoreStep probe cm) acc).restored := by
  intro entries
  induction entries with
  | nil => intro acc e he _; simp at he
  | cons e2 t ih =>
    intro acc e he hp
    rw [List.foldl_cons]
    rcases List.mem_cons.mp he with he | he
    · subst he
      apply restore_foldl_restored_mono
      simp [restoreStep, hp]
    · exact ih _ e he hp

theorem restore_foldl_set (probe : Line → Bool) (cm : Line) :
    ∀ (entries : List (Nat × Line)) (acc : RestoreResult) (e : Nat × Line),
      entries.Pairwise (fun x y => x.1 ≠ y.1) → e ∈ entries →
      probe (mkUrl cm e.2) = true →
      ((entries.foldl (restoreStep probe cm) acc).lines)[e.1]?
        = (acc.lines[e.1]?).map (fun line => reSubAll (mkUrl cm e.2) line) := by
  intro entries
  induction entries with
  | nil => intro _ _ _ h; simp at h
  | cons e2 t ih =>
    intro acc e hpw hmem hp
    rw [List.pairwise_cons] at hpw
    rw [List.foldl_cons]
    rcases List.mem_cons.mp hmem with he | he
    · subst he
      rw [restore_foldl_untouched probe cm t _ e.1
        (fun e3 h3 heq => ?_)]
      · simp only [restoreStep, hp, if_true]
        cases hget : acc.lines[e.1]? with
        | some line =>
          have hgd : acc.lines.getD e.1 [] = line := by
            rw [List.getD_eq_getElem?_getD, hget]
            rfl
          rw [hgd, List.getElem?_set_self', hget]
          rfl
        | none =>
          rw [List.getElem?_set_self', hget]
          rfl
      · exact absurd heq (Ne.symm (hpw.1 e3 h3))
    · have hne : e2.1 ≠ e.1 := hpw.1 e he
      rw [ih (restoreStep probe cm acc e2) e hpw.2 he hp]
      by_cases hp2 : probe (mkUrl cm e2.2) = true
      · simp only [restoreStep, hp2, if_true]
        rw [List.getElem?_set_ne hne]
      · simp only [restoreStep, Bool.eq_false_iff.mpr hp2, Bool.false_eq_true, if_false]

/-! Equivalence of the batched candidate scan with a plain priority-ordered
search. -/

theorem zip_map_find? (f : Line → Bool) :
    ∀ (l : List Line),
      ((l.zip (l.map f)).find? (fun q => q.2)) = (l.find? f).map (fun a => (a, f a)) := by
  intro l
  induction l with
  | nil => simp
  | cons a t ih =>
    by_cases h : f a = true
    · simp [List.find?_cons, h]
    · have hf : f a = false := Bool.eq_false_iff.mpr h
      simp [List.find?_cons, hf, ih]

theorem findFallbackAux_eq_find? (probe : Line → Bool) (path : Line) :
    ∀ (fuel : Nat) (l : List Line), l.length ≤ fuel →
      findFallbackAux probe path fuel l = l.find? (fun sub => probe (mkUrl sub path)) := by
  intro fuel
  induction fuel with
  | zero =>
    intro l hl
    cases l with
    | nil => simp [findFallbackAux]
    | cons s rest => simp at hl
  | succ f ih =>
    intro l hl
    cases l with
    | nil => simp [findFallbackAux]
    | cons s rest =>
      have hsplit : s :: rest
          = (s :: rest.take (FAILOVER_BATCH - 1)) ++ rest.drop (FAILOVER_BATCH - 1) := by
        rw [List.cons_append, List.take_append_drop]
      simp only [findFallbackAux]
      rw [zip_map_find? (fun sub => probe (mkUrl sub path))]
      cases hfind : (s :: rest.take (FAILOVER_BATCH - 1)).find?
          (fun sub => probe (mkUrl sub path)) with
      | some a =>
        conv_rhs => rw [hsplit]
        rw [List.find?_append, hfind]
        rfl
      | none =>
        conv_rhs => rw [hsplit]
        rw [List.find?_append, hfind]
        have hlen : (rest.drop (FAILOVER_BATCH - 1)).length ≤ f := by
          have h1 : (rest.drop (FAILOVER_BATCH - 1)).length ≤ rest.length := by
            simp [List.length_drop]
          have h2 : rest.length ≤ f := by
            simpa using Nat.le_of_succ_le_succ hl
          omega
        rw [ih _ hlen]
        rfl

theorem find_fallback_eq_find? (probe : Line → Bool) (path : Line) (ex : Option Line) :
    find_fallback_for_path_parallel probe path ex
      = (candidateSubs ex).find? (fun sub => probe (mkUrl sub path)) :=
  findFallbackAux_eq_find? probe path _ _ (Nat.le_refl _)

theorem mem_SUB_RANGE {n : Nat} : n ∈ SUB_RANGE ↔ SUB_MIN ≤ n ∧ n ≤ SUB_MAX := by
  unfold SUB_RANGE SUB_MIN SUB_MAX
  constructor
  · intro h
    obtain ⟨i, hi, he⟩ := List.mem_map.mp h
    rw [List.mem_range] at hi
    omega
  · intro ⟨h1, h2⟩
    apply List.mem_map.mpr
    refine ⟨50 - n, List.mem_range.mpr (by omega), by omega⟩

theorem mem_candidateSubs {s : Line} {ex : Option Line} :
    s ∈ candidateSubs ex ↔
      ∃ n, SUB_MIN ≤ n ∧ n ≤ SUB_MAX ∧ s = flName n ∧ ex ≠ some (flName n) := by
  unfold candidateSubs
  constructor
  · intro h
    obtain ⟨n, hn, he⟩ := List.mem_map.mp h
    rw [List.mem_filter] at hn
    have hb := mem_SUB_RANGE.mp hn.1
    refine ⟨n, hb.1, hb.2, he.symm, ?_⟩
    have := hn.2
    simpa using this
  · intro ⟨n, h1, h2, h3, h4⟩
    apply List.mem_map.mpr
    refine ⟨n, List.mem_filter.mpr ⟨mem_SUB_RANGE.mpr ⟨h1, h2⟩, by simpa using h4⟩, h3.symm⟩

/-! Lemmas about `bareFLParse` and well-formed lines. -/

theorem bareFLParse_decomp {line ds p : Line} (h : bareFLParse line = some (ds, p)) :
    line = chars "https://fl" ++ ds ++ chars ".moveonjoy.com/" ++ p ∧
    ds ≠ [] ∧ (∀ c ∈ ds, c.isDigit = true) ∧ p ≠ [] ∧
    (∀ c ∈ p, pyIsSpace c = false) ∧
    containsSub (chars ".moveonjoy.com") p = false := by
  simp only [bareFLParse] at h
  by_cases h1 : (chars "https://fl").isPrefixOf line = true
  · rw [if_pos h1] at h
    by_cases h2 : ((line.drop 10).takeWhile Char.isDigit).isEmpty = true
    · rw [if_pos h2] at h; exact absurd h (by simp)
    · rw [if_neg h2] at h
      by_cases h3 : (chars ".moveonjoy.com/").isPrefixOf
          ((line.drop 10).dropWhile Char.isDigit) = true
      · rw [if_pos h3] at h
        by_cases h4 : (((line.drop 10).dropWhile Char.isDigit).drop 15).isEmpty = true
        · rw [if_pos h4] at h; exact absurd h (by simp)
        · rw [if_neg h4] at h
          by_cases h5 : ((((line.drop 10).dropWhile Char.isDigit).drop 15).all
                (fun c => !pyIsSpace c) &&
              !containsSub (chars ".moveonjoy.com")
                (((line.drop 10).dropWhile Char.isDigit).drop 15)) = true
          · rw [if_pos h5] at h
            simp only [Option.some.injEq, Prod.mk.injEq] at h
            obtain ⟨hds, hp⟩ := h
            rw [Bool.and_eq_true] at h5
            refine ⟨?_, ?_, ?_, ?_, ?_, ?_⟩
            · have e1 : line = chars "https://fl" ++ line.drop 10 := by
                have := eq_append_drop_of_isPrefixOf h1
                rwa [show (chars "https://fl").length = 10 from rfl] at this
              have e2 : line.drop 10 = (line.drop 10).takeWhile Char.isDigit ++
                  (line.drop 10).dropWhile Char.isDigit :=
                (List.takeWhile_append_dropWhile _ _).symm
              have e3 : (line.drop 10).dropWhile Char.isDigit =
                  chars ".moveonjoy.com/" ++ ((line.drop 10).dropWhile Char.isDigit).drop 15 := by
                have := eq_append_drop_of_isPrefixOf h3
                rwa [show (chars ".moveonjoy.com/").length = 15 from rfl] at this
              conv_lhs => rw [e1, e2, e3]
              rw [hds, hp]
              simp [List.append_assoc]
            · intro hnil; apply h2; rw [hds, hnil]; rfl
            · intro c hc; rw [← hds] at hc; exact mem_takeWhile_eq_true _ _ c hc
            · intro hnil; apply h4; rw [hp, hnil]; rfl
            · intro c hc
              rw [← hp] at hc
              have := List.all_eq_true.mp h5.1 c hc
              simpa using this
            · rw [← hp]
              simpa using h5.2
          · rw [if_neg h5] at h; exact absurd h (by simp)
      · rw [if_neg h3] at h; exact absurd h (by simp)
  · rw [if_neg h1] at h; exact absurd h (by simp)

theorem bareFLParse_mk {ds p : Line}
    (hds : ds ≠ []) (hdig : ∀ c ∈ ds, c.isDigit = true)
    (hp : p ≠ []) (hps : ∀ c ∈ p, pyIsSpace c = false)
    (hptok : containsSub (chars ".moveonjoy.com") p = false) :
    bareFLParse (chars "https://fl" ++ ds ++ chars ".moveonjoy.com/" ++ p) = some (ds, p) := by
  have e1 : chars "https://fl" ++ ds ++ chars ".moveonjoy.com/" ++ p
      = chars "https://fl" ++ (ds ++ (chars ".moveonjoy.com/" ++ p)) := by
    simp [List.append_assoc]
  have hdw := takeWhile_dropWhile_append Char.isDigit ds (chars ".moveonjoy.com/" ++ p) hdig
      (by
        intro c hc
        rw [show chars ".moveonjoy.com/" ++ p = '.' :: (chars "moveonjoy.com/" ++ p) from rfl] at hc
        simp only [List.head?_cons, Option.some.injEq] at hc
        subst hc
        decide)
  have hdsE : ds.isEmpty = false := by
    cases ds with
    | nil => exact absurd rfl hds
    | cons a l => rfl
  have hpE : p.isEmpty = false := by
    cases p with
    | nil => exact absurd rfl hp
    | cons a l => rfl
  have hall : p.all (fun c => !pyIsSpace c) = true :=
    List.all_eq_true.mpr (fun c hc => by simp [hps c hc])
  rw [e1]
  simp only [bareFLParse, isPrefixOf_self_append, if_true, drop_https_fl,
    hdw.1, hdw.2, hdsE, isPrefixOf_self_append, drop_moveonjoy_slash,
    hpE, hall, hptok, Bool.false_eq_true, if_false]
  simp

theorem flSearch_bare {line ds p : Line} (h : bareFLParse line = some (ds, p)) :
    flSearch line = some ⟨line, chars "fl" ++ ds, p, []⟩ := by
  obtain ⟨hline, hds, hdig, hp, hps, _⟩ := bareFLParse_decomp h
  have hm := @matchFLAt_pos ds p [] hds hdig hp hps (by intro c hc; simp at hc)
  rw [List.append_nil] at hm
  rw [hline]
  exact flSearch_of_matchFLAt hm

theorem bare_contains_http {ds p : Line} :
    containsSub (chars "http")
      (chars "https://fl" ++ ds ++ chars ".moveonjoy.com/" ++ p) = true := by
  apply containsSub_of_isPrefixOf
  rw [show chars "https://fl" = chars "http" ++ chars "s://fl" from rfl]
  have e : chars "http" ++ chars "s://fl" ++ ds ++ chars ".moveonjoy.com/" ++ p
      = chars "http" ++ (chars "s://fl" ++ ds ++ chars ".moveonjoy.com/" ++ p) := by
    simp [List.append_assoc]
  rw [e]
  exact isPrefixOf_self_append _ _

theorem bare_contains_token_self {ds p : Line} :
    containsSub ((chars "fl" ++ ds) ++ chars ".moveonjoy.com")
      (chars "https://fl" ++ ds ++ chars ".moveonjoy.com/" ++ p) = true := by
  have e : chars "https://fl" ++ ds ++ chars ".moveonjoy.com/" ++ p
      = chars "https://" ++ ((chars "fl" ++ ds) ++ chars ".moveonjoy.com") ++ ('/' :: p) := by
    rw [show chars "https://fl" = chars "https://" ++ chars "fl" from rfl,
        show chars ".moveonjoy.com/" = chars ".moveonjoy.com" ++ ['/'] from rfl]
    simp [List.append_assoc]
  rw [e]
  exact containsSub_at _ _ _

theorem bare_contains_moveonjoy {ds p : Line} :
    containsSub (chars "moveonjoy.com")
      (chars "https://fl" ++ ds ++ chars ".moveonjoy.com/" ++ p) = true := by
  have h := @bare_contains_token_self ds p
  have e : (chars "fl" ++ ds) ++ chars ".moveonjoy.com"
      = ((chars "fl" ++ ds) ++ ['.']) ++ chars "moveonjoy.com" := by
    rw [show chars ".moveonjoy.com" = ['.'] ++ chars "moveonjoy.com" from rfl]
    simp [List.append_assoc]
  rw [e] at h
  exact containsSub_mono h

theorem opaque_no_flSearch {line : Line}
    (h : containsSub (chars ".moveonjoy.com") line = false) : flSearch line = none := by
  cases hm : flSearch line with
  | none => rfl
  | some m => rw [flSearch_some_containsSub hm] at h; exact absurd h (by simp)

theorem opaque_no_subtoken {line sub : Line}
    (h : containsSub (chars ".moveonjoy.com") line = false) :
    containsSub (sub ++ chars ".moveonjoy.com") line = false := by
  cases hv : containsSub (sub ++ chars ".moveonjoy.com") line with
  | false => rfl
  | true => rw [containsSub_mono hv] at h; exact absurd h (by simp)

/-- The mirror-host token of `fl<ds_cm>` does not occur in a bare line on a
different digit run. -/
theorem token_not_in_bare' {ds_cm ds p : Line} (hne : ds_cm ≠ ds)
    (hm : ∀ c ∈ ds_cm, c.isDigit = true) (hk : ∀ c ∈ ds, c.isDigit = true)
    (hptok : containsSub (chars ".moveonjoy.com") p = false) :
    containsSub ((chars "fl" ++ ds_cm) ++ chars ".moveonjoy.com")
      (chars "https://fl" ++ ds ++ chars ".moveonjoy.com/" ++ p) = false := by
  have := token_not_in_bare hne hm hk hptok
  rwa [List.append_assoc] at this

/-! Characterization of the enumeration helpers on well-formed catalogs. -/

theorem mem_enumerate_using_WF {lines : List Line} {ds_cm : Line} {i : Nat} {full path : Line}
    (hWF : WFCatalog lines) (hdig_cm : ∀ c ∈ ds_cm, c.isDigit = true) :
    (i, full, path) ∈ enumerate_lines_using_subdomain lines (chars "fl" ++ ds_cm) ↔
      ∃ line, lines[i]? = some line ∧ bareFLParse line = some (ds_cm, path) ∧ full = line := by
  constructor
  · intro h
    obtain ⟨line, hline, hhttp, htok, m, hm, hfull, hpath⟩ := mem_enumerate_using.mp h
    have hwf := hWF line (List.getElem?_mem hline)
    unfold WFLine at hwf
    rw [Bool.or_eq_true] at hwf
    rcases hwf with hb | hop
    · rw [Option.isSome_iff_exists] at hb
      obtain ⟨⟨ds, p⟩, hparse⟩ := hb
      have hfs := flSearch_bare hparse
      rw [hm] at hfs
      simp only [Option.some.injEq] at hfs
      subst hfs
      by_cases hds_eq : ds_cm = ds
      · subst hds_eq
        exact ⟨line, hline, by rw [hparse, ← hpath], hfull.symm⟩
      · exfalso
        obtain ⟨hlineEq, _, hdig, _, _, hptok⟩ := bareFLParse_decomp hparse
        rw [hlineEq] at htok
        rw [token_not_in_bare' hds_eq hdig_cm hdig hptok] at htok
        exact absurd htok (by simp)
    · exfalso
      rw [opaque_no_subtoken (by simpa using hop)] at htok
      exact absurd htok (by simp)
  · intro ⟨line, hline, hparse, hfull⟩
    apply mem_enumerate_using.mpr
    obtain ⟨hlineEq, hds, hdig, hp, hps, hptok⟩ := bareFLParse_decomp hparse
    refine ⟨line, hline, ?_, ?_, ⟨line, chars "fl" ++ ds_cm, path, []⟩,
      flSearch_bare hparse, hfull.symm, rfl⟩
    · rw [hlineEq]; exact bare_contains_http
    · rw [hlineEq]; exact bare_contains_token_self

theorem mem_enumerate_all_WF {lines : List Line} {i : Nat} {full path sub : Line}
    (hWF : WFCatalog lines) :
    (i, full, path, sub) ∈ enumerate_all_fl_lines lines ↔
      ∃ line ds, lines[i]? = some line ∧ bareFLParse line = some (ds, path) ∧
        full = line ∧ sub = chars "fl" ++ ds := by
  constructor
  · intro h
    obtain ⟨line, hline, hhttp, htok, m, hm, hfull, hpath, hsub⟩ := mem_enumerate_all.mp h
    have hwf := hWF line (List.getElem?_mem hline)
    unfold WFLine at hwf
    rw [Bool.or_eq_true] at hwf
    rcases hwf with hb | hop
    · rw [Option.isSome_iff_exists] at hb
      obtain ⟨⟨ds, p⟩, hparse⟩ := hb
      have hfs := flSearch_bare hparse
      rw [hm] at hfs
      simp only [Option.some.injEq] at hfs
      subst hfs
      exact ⟨line, ds, hline, by rw [hparse, ← hpath], hfull.symm, hsub.symm⟩
    · exfalso
      rw [opaque_no_flSearch (by simpa using hop)] at hm
      exact absurd hm (by simp)
  · intro ⟨line, ds, hline, hparse, hfull, hsub⟩
    apply mem_enumerate_all.mpr
    obtain ⟨hlineEq, hds, hdig, hp, hps, hptok⟩ := bareFLParse_decomp hparse
    refine ⟨line, hline, ?_, ?_, ⟨line, chars "fl" ++ ds, path, []⟩,
      flSearch_bare hparse, hfull.symm, rfl, hsub.symm⟩
    · rw [hlineEq]; exact bare_contains_http
    · rw [hlineEq]; exact bare_contains_moveonjoy

/-! Membership and distinctness of `to_fixOf` and `restoreEntries`. -/

theorem to_fixOf_pairwise (probe : Line → Bool) (lines : List Line) (cm : Line) :
    (to_fixOf probe lines cm).Pairwise (fun x y => x.1 ≠ y.1) := by
  unfold to_fixOf
  apply List.pairwise_map.mpr
  apply List.Pairwise.imp (fun h => Nat.ne_of_lt h)
  exact List.Pairwise.filter _ (enumerate_using_pairwise lines cm)

theorem restoreEntries_pairwise (lines : List Line) (cm : Line) :
    (restoreEntries lines cm).Pairwise (fun x y => x.1 ≠ y.1) := by
  unfold restoreEntries
  apply List.pairwise_map.mpr
  apply List.Pairwise.imp (fun h => Nat.ne_of_lt h)
  exact List.Pairwise.filter _ (enumerate_all_pairwise lines)

theorem mem_to_fixOf {probe : Line → Bool} {lines : List Line} {cm : Line} {i : Nat} {path : Line} :
    (i, path) ∈ to_fixOf probe lines cm ↔
      ∃ full, (i, full, path) ∈ enumerate_lines_using_subdomain lines cm ∧
        probe (mkUrl cm path) = false := by
  unfold to_fixOf
  constructor
  · intro h
    obtain ⟨e, he, heq⟩ := List.mem_map.mp h
    rw [List.mem_filter] at he
    have h1 : e.1 = i := congrArg Prod.fst heq
    have h2 : e.2.2 = path := congrArg Prod.snd heq
    refine ⟨e.2.1, ?_, ?_⟩
    · rw [← h1, ← h2]
      exact he.1
    · have := he.2
      rw [h2] at this
      simpa using this
  · intro ⟨full, hmem, hp⟩
    apply List.mem_map.mpr
    refine ⟨(i, full, path), List.mem_filter.mpr ⟨hmem, by simpa using hp⟩, rfl⟩

theorem mem_restoreEntries {lines : List Line} {cm : Line} {i : Nat} {path : Line} :
    (i, path) ∈ restoreEntries lines cm ↔
      ∃ full sub, (i, full, path, sub) ∈ enumerate_all_fl_lines lines ∧ sub ≠ cm := by
  unfold restoreEntries
  constructor
  · intro h
    obtain ⟨e, he, heq⟩ := List.mem_map.mp h
    rw [List.mem_filter] at he
    have h1 : e.1 = i := congrArg Prod.fst heq
    have h2 : e.2.2.1 = path := congrArg Prod.snd heq
    refine ⟨e.2.1, e.2.2.2, ?_, ?_⟩
    · rw [← h1, ← h2]
      exact he.1
    · have := he.2
      simpa using this
  · intro ⟨full, sub, hmem, hne⟩
    apply List.mem_map.mpr
    refine ⟨(i, full, path, sub), List.mem_filter.mpr ⟨hmem, by simpa using hne⟩, rfl⟩

/-! Remaining small helpers. -/

theorem find?_eq_some_split {p : Line → Bool} :
    ∀ {l : List Line} {a : Line}, l.find? p = some a →
      ∃ l1 l2, l = l1 ++ a :: l2 ∧ (∀ x ∈ l1, p x = false) ∧ p a = true := by
  intro l
  induction l with
  | nil => intro a h; simp at h
  | cons b t ih =>
    intro a h
    by_cases hb : p b = true
    · rw [List.find?_cons_of_pos _ hb] at h
      simp only [Option.some.injEq] at h
      subst h
      exact ⟨[], t, rfl, by simp, hb⟩
    · have hbf : p b = false := Bool.eq_false_iff.mpr hb
      rw [List.find?_cons_of_neg _ hb] at h
      obtain ⟨l1, l2, he, hall, hpa⟩ := ih h
      refine ⟨b :: l1, l2, by rw [he]; simp, ?_, hpa⟩
      intro x hx
      rcases List.mem_cons.mp hx with hx | hx
      · subst hx; exact hbf
      · exact hall x hx

theorem failover_foldl_length (probe : Line → Bool) (cm : Line) :
    ∀ (tf : List (Nat × Line)) (acc : FailoverResult),
      (tf.foldl (failoverStep probe cm) acc).lines.length = acc.lines.length := by
  intro tf
  induction tf with
  | nil => intro acc; rfl
  | cons e t ih =>
    intro acc
    rw [List.foldl_cons, ih]
    cases hff : find_fallback_for_path_parallel probe e.2 (some cm) with
    | some fb => simp [failoverStep, hff]
    | none => simp [failoverStep, hff]

theorem per_channel_length (probe : Line → Bool) (lines : List Line) (cm : Line) :
    (per_channel_failover_fast probe lines cm).lines.length = lines.length := by
  unfold per_channel_failover_fast
  split
  · rfl
  · split
    · rfl
    · exact failover_foldl_length probe cm _ _

/-- In a list that is pairwise distinct on first components, an element is
determined by its first component. -/
theorem pairwise_fst_unique {l : List (Nat × Line)} (h : l.Pairwise (fun x y => x.1 ≠ y.1))
    {a b : Nat × Line} (ha : a ∈ l) (hb : b ∈ l) (hfst : a.1 = b.1) : a = b := by
  by_cases hab : a = b
  · exact hab
  · exact absurd hfst (List.Pairwise.forall (fun _ _ h => h.symm) h ha hb hab)

theorem joinLines_nil : joinLines [] = [] := by
  simp [joinLines, List.intercalate]

theorem joinLines_single (a : Line) : joinLines [a] = a := by
  simp [joinLines, List.intercalate]

theorem joinLines_cons_cons (a b : Line) (t : List Line) :
    joinLines (a :: b :: t) = a ++ '\n' :: joinLines (b :: t) := by
  simp [joinLines, List.intercalate, List.intersperse]
  rfl

/-! Claim theorems. -/

/-- C1: for every resource path and every excluded mirror id,
`find_fallback_for_path_parallel` enumerates candidate mirror ids in
descending priority order from fl50 (`SUB_MAX`) to fl3 (`SUB_MIN`),
skipping the excluded id, builds each candidate URL from the mirror id and
the unchanged path, and returns the highest-priority candidate whose probe
is playable (the first hit of the priority-ordered candidate list); it
returns `none` exactly when every candidate in the range, minus the
exclusion, fails the probe. -/
theorem C1_mirror_scanner_priority (probe : Line → Bool) (path : Line) (exclude : Option Line) :
    (SUB_RANGE.Pairwise (fun a b => b < a) ∧
      SUB_RANGE.head? = some SUB_MAX ∧ SUB_RANGE.getLast? = some SUB_MIN ∧
      candidateSubs exclude
        = (SUB_RANGE.filter (fun n => !(exclude == some (flName n)))).map flName) ∧
    find_fallback_for_path_parallel probe path exclude
      = (candidateSubs exclude).find? (fun sub => probe (mkUrl sub path)) ∧
    (∀ s, find_fallback_for_path_parallel probe path exclude = some s →
      probe (mkUrl s path) = true ∧
      (∃ n, SUB_MIN ≤ n ∧ n ≤ SUB_MAX ∧ s = flName n ∧ exclude ≠ some s) ∧
      ∃ l1 l2, candidateSubs exclude = l1 ++ s :: l2 ∧
        ∀ x ∈ l1, probe (mkUrl x path) = false) ∧
    (find_fallback_for_path_parallel probe path exclude = none ↔
      ∀ s ∈ candidateSubs exclude, probe (mkUrl s path) = false) := by
  refine ⟨⟨by decide, by decide, by decide, rfl⟩, find_fallback_eq_find? probe path exclude,
    ?_, ?_⟩
  · intro s hs
    rw [find_fallback_eq_find? probe path exclude] at hs
    refine ⟨by simpa using List.find?_some hs, ?_, ?_⟩
    · obtain ⟨n, h1, h2, h3, h4⟩ := mem_candidateSubs.mp (List.mem_of_find?_eq_some hs)
      exact ⟨n, h1, h2, h3, by rw [h3]; exact h4⟩
    · obtain ⟨l1, l2, he, hall, _⟩ := find?_eq_some_split hs
      exact ⟨l1, l2, he, hall⟩
  · rw [find_fallback_eq_find? probe path exclude]
    rw [List.find?_eq_none]
    constructor
    · intro h s hsm
      exact Bool.eq_false_iff.mpr (h s hsm)
    · intro h s hsm
      rw [h s hsm]
      simp

/-- Witness for C1 at a concrete probe, path and exclusion. -/
theorem C1_mirror_scanner_priority_witness :
    find_fallback_for_path_parallel
        (fun u => u == chars "https://fl22.moveonjoy.com/A") (chars "A") (some (chars "fl10"))
      = (candidateSubs (some (chars "fl10"))).find?
          (fun sub => (fun u => u == chars "https://fl22.moveonjoy.com/A")
            (mkUrl sub (chars "A"))) :=
  (C1_mirror_scanner_priority (fun u => u == chars "https://fl22.moveonjoy.com/A")
    (chars "A") (some (chars "fl10"))).2.1

/-- C2: the publish gate applies its rules in order: an unchanged serialized
catalog returns false with nothing written and no publish, independently of
the cooldown; a changed catalog inside the cooldown window still writes the
file locally but skips the publish and keeps the persisted timestamp; a
changed catalog outside the window publishes and updates the timestamp to
`now`.  In particular, with the configured 3600 s cooldown, a 10-second gap
yields no publish even on a change, and a 4000-second gap yields a publish
with an updated timestamp. -/
theorem C2_publish_gate (old_text : Line) (new_lines : List Line) (now last : Int) :
    (joinLines new_lines = old_text →
      git_commit_and_push_if_changed old_text new_lines COOLDOWN_SECONDS now last
        = ⟨none, false, last, false⟩) ∧
    (joinLines new_lines ≠ old_text → now - last < COOLDOWN_SECONDS →
      (git_commit_and_push_if_changed old_text new_lines COOLDOWN_SECONDS now last).written.isSome
          = true ∧
      (git_commit_and_push_if_changed old_text new_lines COOLDOWN_SECONDS now last).pushed
          = false ∧
      (git_commit_and_push_if_changed old_text new_lines COOLDOWN_SECONDS now last).newLast
          = last) ∧
    (joinLines new_lines ≠ old_text → COOLDOWN_SECONDS ≤ now - last →
      (git_commit_and_push_if_changed old_text new_lines COOLDOWN_SECONDS now last).written.isSome
          = true ∧
      (git_commit_and_push_if_changed old_text new_lines COOLDOWN_SECONDS now last).pushed
          = true ∧
      (git_commit_and_push_if_changed old_text new_lines COOLDOWN_SECONDS now last).newLast
          = now) ∧
    (joinLines new_lines ≠ old_text →
      (git_commit_and_push_if_changed old_text new_lines COOLDOWN_SECONDS (last + 10) last).pushed
          = false ∧
      (git_commit_and_push_if_changed old_text new_lines COOLDOWN_SECONDS (last + 10)
          last).written.isSome = true ∧
      (git_commit_and_push_if_changed old_text new_lines COOLDOWN_SECONDS (last + 4000)
          last).pushed = true ∧
      (git_commit_and_push_if_changed old_text new_lines COOLDOWN_SECONDS (last + 4000)
          last).newLast = last + 4000) := by
  have hC : COOLDOWN_SECONDS = (3600 : Int) := rfl
  refine ⟨?_, ?_, ?_, ?_⟩
  · intro h
    simp only [git_commit_and_push_if_changed]
    rw [if_pos (beq_iff_eq.mpr h)]
  · intro h hlt
    simp only [git_commit_and_push_if_changed]
    rw [if_neg (fun hc => h (beq_iff_eq.mp hc))]
    rw [if_pos ⟨by rw [hC]; decide, hlt⟩]
    exact ⟨rfl, rfl, rfl⟩
  · intro h hge
    simp only [git_commit_and_push_if_changed]
    rw [if_neg (fun hc => h (beq_iff_eq.mp hc))]
    rw [if_neg (fun hc => by
      have := hc.2
      omega)]
    exact ⟨rfl, rfl, rfl⟩
  · intro h
    refine ⟨?_, ?_, ?_, ?_⟩
    all_goals simp only [git_commit_and_push_if_changed]
    all_goals rw [if_neg (fun hc => h (beq_iff_eq.mp hc))]
    · rw [if_pos ⟨by rw [hC]; decide, by rw [hC]; omega⟩]
    · rw [if_pos ⟨by rw [hC]; decide, by rw [hC]; omega⟩]
      rfl
    · rw [if_neg (fun hc => by
        have := hc.2
        rw [hC] at this
        omega)]
    · rw [if_neg (fun hc => by
        have := hc.2
        rw [hC] at this
        omega)]

/-- Witness for C2 at a concrete changed catalog and concrete timestamps. -/
theorem C2_publish_gate_witness :
    joinLines [chars "y"] ≠ chars "x" ∧
    (git_commit_and_push_if_changed (chars "x") [chars "y"] COOLDOWN_SECONDS 1010 1000).pushed
        = false ∧
    (git_commit_and_push_if_changed (chars "x") [chars "y"] COOLDOWN_SECONDS 5000 1000).pushed
        = true ∧
    (git_commit_and_push_if_changed (chars "x") [chars "y"] COOLDOWN_SECONDS 5000 1000).newLast
        = 5000 :=
  ⟨by decide,
   ((C2_publish_gate (chars "x") [chars "y"] 1010 1000).2.1 (by decide) (by decide)).2.1,
   ((C2_publish_gate (chars "x") [chars "y"] 5000 1000).2.2.1 (by decide) (by decide)).2.1,
   ((C2_publish_gate (chars "x") [chars "y"] 5000 1000).2.2.1 (by decide) (by decide)).2.2⟩

/-- C9: the mirror-wide fallback search can only select a subdomain that
already appears on some line of the loaded playlist: for any candidate
subdomain referenced by no catalog line, the sample of
`subdomain_alive_any_fast` is empty and it returns false regardless of the
probe (no probe is consulted), so `find_any_fallback_main_fast` never
returns a subdomain absent from the playlist, whatever its actual
health. -/
theorem C9_absent_subdomain_never_chosen (lines : List Line) (sub : Line)
    (h : enumerate_lines_using_subdomain lines sub = []) :
    (∀ probe : Line → Bool, subdomain_alive_any_fast probe lines sub = false) ∧
    (∀ (probe : Line → Bool) (exclude : Option Line),
      find_any_fallback_main_fast probe lines exclude ≠ some sub) := by
  have halive : ∀ probe : Line → Bool, subdomain_alive_any_fast probe lines sub = false := by
    intro probe
    unfold subdomain_alive_any_fast
    rw [h]
    rfl
  refine ⟨halive, ?_⟩
  intro probe exclude hfind
  unfold find_any_fallback_main_fast at hfind
  have hp := List.find?_some hfind
  simp only at hp
  rw [halive probe] at hp
  exact absurd hp (by simp)

/-- Witness for C9 on a catalog with no mirror lines. -/
theorem C9_absent_subdomain_never_chosen_witness :
    enumerate_lines_using_subdomain [chars "#hello"] (chars "fl9") = [] ∧
    subdomain_alive_any_fast (fun _ => true) [chars "#hello"] (chars "fl9") = false ∧
    find_any_fallback_main_fast (fun _ => true) [chars "#hello"] none ≠ some (chars "fl9") :=
  ⟨by decide,
   (C9_absent_subdomain_never_chosen [chars "#hello"] (chars "fl9") (by decide)).1 _,
   (C9_absent_subdomain_never_chosen [chars "#hello"] (chars "fl9") (by decide)).2 _ none⟩

/-- C10 counterexample: the claim that the failover pass rewrites only
lines whose URL uses the current main subdomain — every line pointing at
another subdomain being returned unchanged, so that a resource already
failed over to a non-home mirror is never re-failed-over to a third
mirror — is false of the code: enumeration for the main tests substring
containment of `f"{sub}.moveonjoy.com"` anywhere in the line, not the
URL's host, so a line whose URL is on fl22 but whose path contains the
token `fl10.moveonjoy.com` is enumerated for main fl10; its main probe
fails, and the pass rewrites it to the third mirror fl50 with
`changed = true`. -/
theorem C10_counterexample :
    (flSearch (chars "https://fl22.moveonjoy.com/x/fl10.moveonjoy.com")).map
        (fun m => m.sub) = some (chars "fl22") ∧
    chars "fl22" ≠ chars "fl10" ∧
    ((per_channel_failover_fast
        (fun u => u == chars "https://fl50.moveonjoy.com/x/fl10.moveonjoy.com")
        [chars "https://fl22.moveonjoy.com/x/fl10.moveonjoy.com"] (chars "fl10")).lines)[0]?
      = some (chars "https://fl50.moveonjoy.com/x/fl10.moveonjoy.com") ∧
    (per_channel_failover_fast
        (fun u => u == chars "https://fl50.moveonjoy.com/x/fl10.moveonjoy.com")
        [chars "https://fl22.moveonjoy.com/x/fl10.moveonjoy.com"] (chars "fl10")).changed
      = true ∧
    (flSearch (chars "https://fl50.moveonjoy.com/x/fl10.moveonjoy.com")).map
        (fun m => m.sub) = some (chars "fl50") := by
  refine ⟨by decide, by decide, by decide, by decide, by decide⟩

/-- C10 amended: the failover pass may rewrite only lines enumerated for
the current main subdomain, where enumeration tests substring containment
of `f"{main}.moveonjoy.com"` anywhere in the line (host or path) rather
than the URL's host; every line at an index outside that enumeration — in
particular every line free of the main's host token — is returned
unchanged by the pass. -/
theorem C10_failover_frame (probe : Line → Bool) (lines : List Line) (cm : Line) :
    (∀ j : Nat, (∀ full path : Line,
        (j, full, path) ∉ enumerate_lines_using_subdomain lines cm) →
      ((per_channel_failover_fast probe lines cm).lines)[j]? = lines[j]?) ∧
    (∀ (j : Nat) (line : Line), lines[j]? = some line →
      containsSub (cm ++ chars ".moveonjoy.com") line = false →
      ((per_channel_failover_fast probe lines cm).lines)[j]? = some line) := by
  have key : ∀ j : Nat, (∀ e ∈ to_fixOf probe lines cm, e.1 ≠ j) →
      ((per_channel_failover_fast probe lines cm).lines)[j]? = lines[j]? := by
    intro j hj
    unfold per_channel_failover_fast
    split
    · rfl
    · split
      · rfl
      · exact failover_foldl_untouched probe cm _ _ j
          (fun e he heq => absurd heq (hj e he))
  constructor
  · intro j hj
    apply key
    intro e he heq
    obtain ⟨full, hmem, _⟩ := mem_to_fixOf.mp he
    rw [heq] at hmem
    exact hj full e.2 hmem
  · intro j line hline htok
    have : ((per_channel_failover_fast probe lines cm).lines)[j]? = lines[j]? := by
      apply key
      intro e he heq
      obtain ⟨full, hmem, _⟩ := mem_to_fixOf.mp he
      rw [heq] at hmem
      obtain ⟨line2, hline2, _, htok2, _⟩ := mem_enumerate_using.mp hmem
      rw [hline] at hline2
      simp only [Option.some.injEq] at hline2
      rw [hline2] at htok
      rw [htok2] at htok
      exact absurd htok (by simp)
    rw [this, hline]

/-- Witness for C10 on a catalog whose second line is on another
subdomain. -/
theorem C10_failover_frame_witness :
    ([chars "https://fl10.moveonjoy.com/A", chars "https://fl22.moveonjoy.com/B"])[1]?
        = some (chars "https://fl22.moveonjoy.com/B") ∧
    containsSub (chars "fl10" ++ chars ".moveonjoy.com")
        (chars "https://fl22.moveonjoy.com/B") = false ∧
    ((per_channel_failover_fast (fun _ => false)
        [chars "https://fl10.moveonjoy.com/A", chars "https://fl22.moveonjoy.com/B"]
        (chars "fl10")).lines)[1]?
      = some (chars "https://fl22.moveonjoy.com/B") :=
  ⟨by decide, by decide,
   (C10_failover_frame (fun _ => false)
      [chars "https://fl10.moveonjoy.com/A", chars "https://fl22.moveonjoy.com/B"]
      (chars "fl10")).2 1 (chars "https://fl22.moveonjoy.com/B") (by decide) (by decide)⟩

/-- C6: for every resource whose path probes unplayable on every candidate
mirror in `[SUB_MIN, SUB_MAX]`, the failover pass leaves the resource's
catalog line unchanged (it stays on its last mirror) and reports it
degraded; the pass returns normally, and when every failing resource finds
no candidate the returned changed flag is false and the whole catalog is
returned unchanged. -/
theorem C6_degraded_stability (probe : Line → Bool) (lines : List Line)
    (j n : Nat) (full path : Line)
    (hn1 : SUB_MIN ≤ n) (hn2 : n ≤ SUB_MAX)
    (hmem : (j, full, path) ∈ enumerate_lines_using_subdomain lines (flName n))
    (hfail : ∀ k, SUB_MIN ≤ k → k ≤ SUB_MAX → probe (mkUrl (flName k) path) = false) :
    ((per_channel_failover_fast probe lines (flName n)).lines)[j]? = lines[j]? ∧
    (j, path) ∈ (per_channel_failover_fast probe lines (flName n)).degraded ∧
    ((∀ e ∈ to_fixOf probe lines (flName n),
        ∀ k, SUB_MIN ≤ k → k ≤ SUB_MAX → probe (mkUrl (flName k) e.2) = false) →
      (per_channel_failover_fast probe lines (flName n)).changed = false ∧
      (per_channel_failover_fast probe lines (flName n)).lines = lines) := by
  have hffnone : ∀ q : Line,
      (∀ k, SUB_MIN ≤ k → k ≤ SUB_MAX → probe (mkUrl (flName k) q) = false) →
      find_fallback_for_path_parallel probe q (some (flName n)) = none := by
    intro q hq
    rw [find_fallback_eq_find?]
    apply List.find?_eq_none.mpr
    intro s hs
    obtain ⟨k, h1, h2, h3, _⟩ := mem_candidateSubs.mp hs
    rw [h3, hq k h1 h2]
    simp
  have htf : (j, path) ∈ to_fixOf probe lines (flName n) :=
    mem_to_fixOf.mpr ⟨full, hmem, hfail n hn1 hn2⟩
  refine ⟨?_, ?_, ?_⟩
  · unfold per_channel_failover_fast
    split
    · rfl
    · split
      · rfl
      · apply failover_foldl_untouched
        intro e he heq
        have : e = (j, path) :=
          pairwise_fst_unique (to_fixOf_pairwise probe lines (flName n)) he htf heq
        rw [this]
        exact hffnone path hfail
  · unfold per_channel_failover_fast
    split
    · rename_i hempty
      rw [List.isEmpty_iff] at hempty
      rw [hempty] at hmem
      exact absurd hmem (by simp)
    · split
      · rename_i hempty
        rw [List.isEmpty_iff] at hempty
        rw [hempty] at htf
        exact absurd htf (by simp)
      · exact failover_foldl_degraded_mem probe (flName n) _ _ (j, path) htf
          (hffnone path hfail)
  · intro hall
    constructor
    · unfold per_channel_failover_fast
      split
      · rfl
      · split
        · rfl
        · rw [failover_foldl_changed]
          simp only [Bool.false_or]
          rw [List.any_eq_false]
          intro e he
          rw [hffnone e.2 (hall e he)]
          simp
    · unfold per_channel_failover_fast
      split
      · rfl
      · split
        · rfl
        · apply List.ext_getElem?
          intro i
          apply failover_foldl_untouched
          intro e he heq
          exact hffnone e.2 (hall e he)

/-- Witness for C6 on a one-line catalog whose probe always fails. -/
theorem C6_degraded_stability_witness :
    (0, chars "https://fl10.moveonjoy.com/A", chars "A") ∈
      enumerate_lines_using_subdomain [chars "https://fl10.moveonjoy.com/A"] (flName 10) ∧
    (per_channel_failover_fast (fun _ => false) [chars "https://fl10.moveonjoy.com/A"]
        (flName 10)).changed = false ∧
    (0, chars "A") ∈ (per_channel_failover_fast (fun _ => false)
        [chars "https://fl10.moveonjoy.com/A"] (flName 10)).degraded :=
  ⟨by decide,
   ((C6_degraded_stability (fun _ => false) [chars "https://fl10.moveonjoy.com/A"] 0 10
      (chars "https://fl10.moveonjoy.com/A") (chars "A") (by decide) (by decide) (by decide)
      (fun _ _ _ => rfl)).2.2 (fun _ _ _ _ _ => rfl)).1,
   (C6_degraded_stability (fun _ => false) [chars "https://fl10.moveonjoy.com/A"] 0 10
      (chars "https://fl10.moveonjoy.com/A") (chars "A") (by decide) (by decide) (by decide)
      (fun _ _ _ => rfl)).2.1⟩

/-- C3: for every catalog line carrying a mirror URL (with arbitrary
surrounding content) whose parsed mirror token differs from the main
`fl<ds_cm>`, if its path probes playable at the main then the restore pass
rewrites the line: the content before the URL is preserved, the URL becomes
the main's URL for that path, the tail is rewritten in turn, the mirror id
parsed from the rewritten line equals the main, the change is flagged and
the resource recorded as restored; a resource whose main probe is not
playable keeps its line, and hence its current mirror, unchanged. -/
theorem C3_restore_correctness (probe : Line → Bool) (lines : List Line) (ds_cm : Line)
    (hdsne : ds_cm ≠ []) (hdig_cm : ∀ c ∈ ds_cm, c.isDigit = true)
    (j : Nat) (line : Line) (m : FLMatch)
    (hline : lines[j]? = some line) (hfs : flSearch line = some m)
    (hne : m.sub ≠ chars "fl" ++ ds_cm) :
    (probe (mkUrl (chars "fl" ++ ds_cm) m.path) = true →
      ∃ newline,
        ((auto_restore_to_main_fast probe lines (chars "fl" ++ ds_cm)).lines)[j]?
            = some newline ∧
        (∃ a, line = a ++ m.full ++ m.rest ∧
          newline = a ++ mkUrl (chars "fl" ++ ds_cm) m.path
              ++ reSubAll (mkUrl (chars "fl" ++ ds_cm) m.path) m.rest) ∧
        (flSearch newline).map (fun mm => mm.sub) = some (chars "fl" ++ ds_cm) ∧
        (auto_restore_to_main_fast probe lines (chars "fl" ++ ds_cm)).changed = true ∧
        (j, m.path) ∈ (auto_restore_to_main_fast probe lines (chars "fl" ++ ds_cm)).restored) ∧
    (probe (mkUrl (chars "fl" ++ ds_cm) m.path) = false →
      ((auto_restore_to_main_fast probe lines (chars "fl" ++ ds_cm)).lines)[j]?
          = some line ∧
      (flSearch line).map (fun mm => mm.sub) = some m.sub) := by
  have hhttp : containsSub (chars "http") line = true := by
    obtain ⟨a, hlineEq, hmm, _⟩ := flSearch_decomp_none hfs
    obtain ⟨ds, _, _, _, _, _, _, hfull, _⟩ := matchFLAt_decomp hmm
    rw [hlineEq]
    apply containsSub_append_right
    have e : m.full ++ m.rest = chars "http" ++ (chars "s://fl"
        ++ (ds ++ (chars ".moveonjoy.com/" ++ (m.path ++ m.rest)))) := by
      rw [hfull, show chars "https://fl" = chars "http" ++ chars "s://fl" from rfl]
      simp [List.append_assoc]
    rw [e]
    exact containsSub_of_isPrefixOf (isPrefixOf_self_append _ _)
  have hmoj0 := flSearch_some_containsSub hfs
  rw [show chars ".moveonjoy.com" = chars "." ++ chars "moveonjoy.com" from rfl] at hmoj0
  have hmoj : containsSub (chars "moveonjoy.com") line = true := containsSub_mono hmoj0
  have hmem : (j, m.full, m.path, m.sub) ∈ enumerate_all_fl_lines lines :=
    mem_enumerate_all.mpr ⟨line, hline, hhttp, hmoj, m, hfs, rfl, rfl, rfl⟩
  have hentry : (j, m.path) ∈ restoreEntries lines (chars "fl" ++ ds_cm) :=
    mem_restoreEntries.mpr ⟨m.full, m.sub, hmem, hne⟩
  obtain ⟨a, hlineEq, hre, hfsearch⟩ := reSubAll_flSearch_decomp hfs hdsne hdig_cm
  constructor
  · intro hp
    refine ⟨a ++ mkUrl (chars "fl" ++ ds_cm) m.path
        ++ reSubAll (mkUrl (chars "fl" ++ ds_cm) m.path) m.rest,
      ?_, ⟨a, hlineEq, rfl⟩, ?_, ?_, ?_⟩
    · unfold auto_restore_to_main_fast
      have hset := restore_foldl_set probe (chars "fl" ++ ds_cm)
        (restoreEntries lines (chars "fl" ++ ds_cm)) ⟨lines, false, []⟩ (j, m.path)
        (restoreEntries_pairwise lines (chars "fl" ++ ds_cm)) hentry hp
      simp only at hset
      rw [hset, hline]
      simp only [Option.map_some']
      rw [hre]
    · rw [← hre]
      exact hfsearch
    · unfold auto_restore_to_main_fast
      rw [restore_foldl_changed]
      simp only [Bool.false_or]
      exact List.any_eq_true.mpr ⟨(j, m.path), hentry, hp⟩
    · unfold auto_restore_to_main_fast
      exact restore_foldl_restored_mem probe _ _ _ (j, m.path) hentry hp
  · intro hpf
    refine ⟨?_, by rw [hfs]; rfl⟩
    unfold auto_restore_to_main_fast
    rw [restore_foldl_untouched probe (chars "fl" ++ ds_cm) _ _ j ?_]
    · exact hline
    · intro e he heq
      have : e = (j, m.path) :=
        pairwise_fst_unique (restoreEntries_pairwise lines (chars "fl" ++ ds_cm)) he hentry heq
      rw [this]
      exact hpf

/-- Witness for C3 on a one-line catalog whose resource line carries
surrounding content around its fl22 URL, with main fl10 and an
always-playable probe. -/
theorem C3_restore_correctness_witness :
    ∃ newline,
      ((auto_restore_to_main_fast (fun _ => true)
          [chars "x https://fl22.moveonjoy.com/A tail"] (chars "fl" ++ chars "10")).lines)[0]?
        = some newline ∧
      (∃ a, chars "x https://fl22.moveonjoy.com/A tail"
          = a ++ chars "https://fl22.moveonjoy.com/A" ++ chars " tail" ∧
        newline = a ++ mkUrl (chars "fl" ++ chars "10") (chars "A")
            ++ reSubAll (mkUrl (chars "fl" ++ chars "10") (chars "A")) (chars " tail")) ∧
      (flSearch newline).map (fun mm => mm.sub) = some (chars "fl" ++ chars "10") ∧
      (auto_restore_to_main_fast (fun _ => true)
          [chars "x https://fl22.moveonjoy.com/A tail"]
          (chars "fl" ++ chars "10")).changed = true ∧
      (0, chars "A") ∈ (auto_restore_to_main_fast (fun _ => true)
          [chars "x https://fl22.moveonjoy.com/A tail"]
          (chars "fl" ++ chars "10")).restored :=
  (C3_restore_correctness (fun _ => true) [chars "x https://fl22.moveonjoy.com/A tail"]
    (chars "10") (by decide) (by decide) 0 (chars "x https://fl22.moveonjoy.com/A tail")
    ⟨chars "https://fl22.moveonjoy.com/A", chars "fl22", chars "A", chars " tail"⟩
    rfl (by decide) (by decide)).1 rfl


/-- C8 counterexample: the claim that every mirror-id token written into a
catalog line lies in `[SUB_MIN, SUB_MAX]` fails: with a catalog whose first
line carries the out-of-range token `fl99`, the detected main is `fl99` and
the restore pass rewrites the second line to an `fl99` URL — a token equal
to no `flName n` with `n ∈ SUB_RANGE`. -/
theorem C8_counterexample :
    extract_current_subdomain_from_lines
        [chars "https://fl99.moveonjoy.com/A", chars "https://fl5.moveonjoy.com/A"]
      = some (chars "fl99") ∧
    ((auto_restore_to_main_fast (fun _ => true)
        [chars "https://fl99.moveonjoy.com/A", chars "https://fl5.moveonjoy.com/A"]
        (chars "fl99")).lines)[1]? = some (chars "https://fl99.moveonjoy.com/A") ∧
    (flSearch (chars "https://fl99.moveonjoy.com/A")).map (fun m => m.sub)
        = some (chars "fl99") ∧
    (∀ s ∈ SUB_RANGE.map flName, s ≠ chars "fl99") := by
  refine ⟨by decide, by decide, by decide, by decide⟩

/-- C8 amended: every mirror id the scanner itself selects — by
`find_fallback_for_path_parallel` or `find_any_fallback_main_fast` — is
`flName n` for some `n` in the inclusive range `[SUB_MIN, SUB_MAX]`; mirror
ids read from the catalog (and hence the restore target, which is written
back verbatim) are not range-validated. -/
theorem C8_scanner_range (probe : Line → Bool) (path : Line) (ex : Option Line)
    (lines : List Line) :
    (∀ s, find_fallback_for_path_parallel probe path ex = some s →
      ∃ n, SUB_MIN ≤ n ∧ n ≤ SUB_MAX ∧ s = flName n) ∧
    (∀ s, find_any_fallback_main_fast probe lines ex = some s →
      ∃ n, SUB_MIN ≤ n ∧ n ≤ SUB_MAX ∧ s = flName n) := by
  constructor
  · intro s hs
    rw [find_fallback_eq_find?] at hs
    obtain ⟨n, h1, h2, h3, _⟩ := mem_candidateSubs.mp (List.mem_of_find?_eq_some hs)
    exact ⟨n, h1, h2, h3⟩
  · intro s hs
    unfold find_any_fallback_main_fast at hs
    have hmem := List.mem_of_find?_eq_some hs
    rw [List.mem_filter] at hmem
    obtain ⟨n, hn, he⟩ := List.mem_map.mp hmem.1
    have hb := mem_SUB_RANGE.mp hn
    exact ⟨n, hb.1, hb.2, he.symm⟩

/-- Witness for C8's amended range property at a concrete scan. -/
theorem C8_scanner_range_witness :
    find_fallback_for_path_parallel (fun _ => true) (chars "A") none = some (flName 50) ∧
    (∃ n, SUB_MIN ≤ n ∧ n ≤ SUB_MAX ∧ flName 50 = flName n) :=
  ⟨by decide,
   (C8_scanner_range (fun _ => true) (chars "A") none []).1 (flName 50) (by decide)⟩

/-- C4 counterexample: the claim that the restore pass runs after
`FailoverController` within the same invocation fails: on this catalog,
`main()` runs the restore pass (which changes a line and commits) and the
failover pass never runs in that invocation. -/
theorem C4_counterexample :
    PassKind.restorePass ∈ mainTrace (fun _ => true)
      [chars "https://fl5.moveonjoy.com/A", chars "https://fl4.moveonjoy.com/A"] ∧
    PassKind.failoverPass ∉ mainTrace (fun _ => true)
      [chars "https://fl5.moveonjoy.com/A", chars "https://fl4.moveonjoy.com/A"] := by
  decide

/-- C4 amended: in every invocation, the engine runs one of the pass
sequences `[]` (no main found), `[restore]` (main alive, restore changed
something — failover is skipped), `[restore, failover]` (main alive,
restore changed nothing), `[failover]` (main dead, no fallback main) or
`[migrate]` (main dead, fallback main found): when both passes run, the
restore pass runs before — not after — the failover pass; and the restore
pass only ever rewrites a line to the detected main's URL for the line's
path, never away from it. -/
theorem C4_pass_order (probe : Line → Bool) (lines : List Line) :
    (mainTrace probe lines = [] ∨
     mainTrace probe lines = [PassKind.restorePass] ∨
     mainTrace probe lines = [PassKind.restorePass, PassKind.failoverPass] ∨
     mainTrace probe lines = [PassKind.failoverPass] ∨
     mainTrace probe lines = [PassKind.migratePass]) ∧
    (∀ (cm : Line) (j : Nat),
      ((auto_restore_to_main_fast probe lines cm).lines)[j]? = lines[j]? ∨
      ∃ path, (j, path) ∈ (auto_restore_to_main_fast probe lines cm).restored ∧
        ((auto_restore_to_main_fast probe lines cm).lines)[j]?
          = (lines[j]?).map (fun line => reSubAll (mkUrl cm path) line)) := by
  constructor
  · cases hx : extract_current_subdomain_from_lines lines with
    | none => left; simp [mainTrace, hx]
    | some cm =>
      by_cases h1 : subdomain_alive_any_fast probe lines cm = true
      · by_cases h2 : (auto_restore_to_main_fast probe lines cm).changed = true
        · right; left; simp [mainTrace, hx, h1, h2]
        · right; right; left; simp [mainTrace, hx, h1, h2]
      · cases hf : find_any_fallback_main_fast probe lines (some cm) with
        | none => right; right; right; left; simp [mainTrace, hx, h1, hf]
        | some fb => right; right; right; right; simp [mainTrace, hx, h1, hf]
  · intro cm j
    by_cases hall : ∀ e ∈ restoreEntries lines cm, e.1 = j → probe (mkUrl cm e.2) = false
    · left
      unfold auto_restore_to_main_fast
      exact restore_foldl_untouched probe cm _ _ j hall
    · right
      push_neg at hall
      obtain ⟨e, he, heq, hp⟩ := hall
      have hpt : probe (mkUrl cm e.2) = true := by
        cases hv : probe (mkUrl cm e.2) with
        | false => exact absurd hv hp
        | true => rfl
      refine ⟨e.2, ?_, ?_⟩
      · unfold auto_restore_to_main_fast
        have hmem := restore_foldl_restored_mem probe cm _ ⟨lines, false, []⟩ e he hpt
        have he2 : (j, e.2) = e := by rw [← heq]
        rwa [he2]
      · unfold auto_restore_to_main_fast
        have := restore_foldl_set probe cm _ ⟨lines, false, []⟩ e
          (restoreEntries_pairwise lines cm) he hpt
        rw [← heq]
        exact this

/-! Lemmas about the splitlines model, for the round-trip claim. -/

theorem takeLine_no_break :
    ∀ (l : Line), (∀ c ∈ l, pyIsLineBreak c = false) → ∀ r : Line,
      takeLine (l ++ '\n' :: r) = (l, r) := by
  intro l
  induction l with
  | nil => intro _ r; rfl
  | cons c cs ih =>
    intro hnb r
    have hc : pyIsLineBreak c = false := hnb c (by simp)
    show takeLine (c :: (cs ++ '\n' :: r)) = (c :: cs, r)
    simp only [takeLine]
    rw [if_neg (by rw [hc]; simp : ¬pyIsLineBreak c = true)]
    rw [ih (fun d hd => hnb d (by simp [hd])) r]

theorem takeLine_snd_le : ∀ (cs : Line), ((takeLine cs).2).length ≤ cs.length := by
  intro cs
  induction cs with
  | nil => simp [takeLine]
  | cons c cs ih =>
    by_cases hb : pyIsLineBreak c = true
    · by_cases hr : (c == '\r') = true
      · simp only [takeLine, hb, if_true, hr]
        by_cases hh : (cs.head? == some '\n') = true
        · rw [if_pos hh]
          dsimp only
          rw [List.length_tail]
          simp only [List.length_cons]
          omega
        · rw [if_neg hh]
          dsimp only
          simp only [List.length_cons]
          omega
      · have hrf : (c == '\r') = false := Bool.eq_false_iff.mpr hr
        simp [takeLine, hb, hrf]
    · have hbf : pyIsLineBreak c = false := Bool.eq_false_iff.mpr hb
      simp only [takeLine, hbf, Bool.false_eq_true, if_false]
      exact Nat.le_trans ih (Nat.le_succ _)

theorem takeLine_snd_le_cons (c : Char) (cs : Line) :
    ((takeLine (c :: cs)).2).length ≤ cs.length := by
  by_cases hb : pyIsLineBreak c = true
  · by_cases hr : (c == '\r') = true
    · simp only [takeLine, hb, if_true, hr]
      by_cases hh : (cs.head? == some '\n') = true
      · rw [if_pos hh]
        dsimp only
        rw [List.length_tail]
        omega
      · rw [if_neg hh]
    · have hrf : (c == '\r') = false := Bool.eq_false_iff.mpr hr
      simp [takeLine, hb, hrf]
  · have hbf : pyIsLineBreak c = false := Bool.eq_false_iff.mpr hb
    simp only [takeLine, hbf, Bool.false_eq_true, if_false]
    exact takeLine_snd_le cs

theorem pysplitlinesAux_fuel : ∀ (f g : Nat) (cs : Line), cs.length ≤ f → cs.length ≤ g →
    pysplitlinesAux f cs = pysplitlinesAux g cs := by
  intro f
  induction f with
  | zero =>
    intro g cs hf _
    have : cs = [] := List.eq_nil_of_length_eq_zero (Nat.le_zero.mp hf)
    subst this
    cases g <;> rfl
  | succ f ih =>
    intro g cs hf hg
    cases cs with
    | nil => cases g <;> rfl
    | cons c cs' =>
      cases g with
      | zero => simp at hg
      | succ g' =>
        simp only [pysplitlinesAux]
        congr 1
        apply ih
        · exact Nat.le_trans (takeLine_snd_le_cons c cs')
            (by simpa using Nat.le_of_succ_le_succ hf)
        · exact Nat.le_trans (takeLine_snd_le_cons c cs')
            (by simpa using Nat.le_of_succ_le_succ hg)

theorem pysplitlines_cons (c : Char) (cs : Line) :
    pysplitlines (c :: cs)
      = (takeLine (c :: cs)).1 :: pysplitlines (takeLine (c :: cs)).2 := by
  unfold pysplitlines
  simp only [List.length_cons, pysplitlinesAux]
  congr 1
  exact pysplitlinesAux_fuel cs.length ((takeLine (c :: cs)).2).length _
    (takeLine_snd_le_cons c cs) (Nat.le_refl _)

theorem pysplitlines_of_ne_nil (l : Line) (h : l ≠ []) :
    pysplitlines l = (takeLine l).1 :: pysplitlines (takeLine l).2 := by
  cases l with
  | nil => exact absurd rfl h
  | cons c cs => exact pysplitlines_cons c cs

theorem pysplitlines_join : ∀ (ls : List Line), ls ≠ [] →
    (∀ l ∈ ls, ∀ c ∈ l, pyIsLineBreak c = false) →
    pysplitlines (joinLines ls ++ '\n' :: []) = ls := by
  intro ls
  induction ls with
  | nil => intro h _; exact absurd rfl h
  | cons a t ih =>
    intro _ hnb
    cases t with
    | nil =>
      rw [joinLines_single]
      rw [pysplitlines_of_ne_nil _ (by simp)]
      rw [takeLine_no_break a (hnb a (by simp)) []]
      rfl
    | cons b t' =>
      rw [joinLines_cons_cons]
      have e : (a ++ '\n' :: joinLines (b :: t')) ++ '\n' :: []
          = a ++ '\n' :: (joinLines (b :: t') ++ '\n' :: []) := by simp
      rw [e]
      rw [pysplitlines_of_ne_nil _ (by simp)]
      rw [takeLine_no_break a (hnb a (by simp))]
      simp only
      rw [ih (by simp) (fun l hl => hnb l (by simp [hl]))]

theorem joinLines_getLast? : ∀ (ls : List Line) (lastl : Line),
    ls.getLast? = some lastl → lastl ≠ [] →
    (joinLines ls).getLast? = lastl.getLast? := by
  intro ls
  induction ls with
  | nil => intro l h; simp at h
  | cons a t ih =>
    intro lastl hl hne
    cases t with
    | nil =>
      simp only [List.getLast?_singleton, Option.some.injEq] at hl
      subst hl
      rw [joinLines_single]
    | cons b t' =>
      have hl' : (b :: t').getLast? = some lastl := by
        rwa [List.getLast?_cons_cons] at hl
      have hIH := ih lastl hl' hne
      rw [joinLines_cons_cons, List.getLast?_append_of_ne_nil _ (by simp)]
      cases hj : joinLines (b :: t') with
      | nil =>
        rw [hj] at hIH
        exfalso
        have hs : lastl.getLast?.isSome = true := List.getLast?_isSome.mpr hne
        rw [← hIH] at hs
        simp at hs
      | cons x xs =>
        rw [show ('\n' :: x :: xs).getLast? = (x :: xs).getLast? from List.getLast?_cons_cons,
          ← hj, hIH]

theorem write_playlist_of_last_ne (ls : List Line) (lastl : Line)
    (hl : ls.getLast? = some lastl) (hne : lastl ≠ [])
    (hnb : ∀ c ∈ lastl, pyIsLineBreak c = false) :
    write_playlist_lines ls = joinLines ls ++ '\n' :: [] := by
  unfold write_playlist_lines
  have hj := joinLines_getLast? ls lastl hl hne
  cases lastl with
  | nil => exact absurd rfl hne
  | cons x xs =>
    have hlast : (x :: xs).getLast? = some ((x :: xs).getLast (by simp)) :=
      List.getLast?_eq_getLast _ _
    have hcnb : pyIsLineBreak ((x :: xs).getLast (by simp)) = false :=
      hnb _ (List.getLast_mem _)
    have hcond : ((joinLines ls).getLast? == some '\n') = false := by
      rw [hj, hlast]
      simp only [beq_eq_false_iff_ne, ne_eq, Option.some.injEq]
      intro he
      rw [he] at hcnb
      exact absurd hcnb (by decide)
    rw [hcond]
    simp

/-- C5 counterexample: parsing a catalog and re-serializing it with zero
resource changes is not byte-identical to the input in general:
`write_playlist_lines` appends a newline, so the one-byte catalog `"A"`
(no trailing newline) round-trips to `"A\n"`. -/
theorem C5_counterexample :
    write_playlist_lines (read_playlist_lines (chars "A")).1 = chars "A" ++ ['\n'] ∧
    write_playlist_lines (read_playlist_lines (chars "A")).1 ≠ chars "A" := by
  decide

/-- C5 amended: parsing a catalog and re-serializing it with zero resource
changes yields output byte-identical to the input, provided the input is a
sequence of lines free of line-break characters, joined by single `'\n'`
separators, with a trailing newline and a nonempty final line (otherwise
`write_playlist_lines` appends a newline, and `splitlines` normalizes
`\r\n` or other break characters and a trailing empty line). -/
theorem C5_roundtrip (ls : List Line) (hne : ls ≠ [])
    (hnb : ∀ l ∈ ls, ∀ c ∈ l, pyIsLineBreak c = false)
    (hlast : ∀ l, ls.getLast? = some l → l ≠ []) :
    write_playlist_lines (read_playlist_lines (joinLines ls ++ '\n' :: [])).1
      = joinLines ls ++ '\n' :: [] := by
  have h1 : (read_playlist_lines (joinLines ls ++ '\n' :: [])).1 = ls :=
    pysplitlines_join ls hne hnb
  rw [h1]
  have hsome : ls.getLast?.isSome = true := List.getLast?_isSome.mpr hne
  rw [Option.isSome_iff_exists] at hsome
  obtain ⟨lastl, hl⟩ := hsome
  exact write_playlist_of_last_ne ls lastl hl (hlast lastl hl)
    (hnb lastl (List.mem_of_mem_getLast? hl))

/-- Witness for C5's amended round trip on a concrete two-line catalog. -/
theorem C5_roundtrip_witness :
    joinLines [chars "#EXTM3U", chars "https://fl10.moveonjoy.com/A"] ++ '\n' :: []
        = chars "#EXTM3U\nhttps://fl10.moveonjoy.com/A\n" ∧
    write_playlist_lines
        (read_playlist_lines (chars "#EXTM3U\nhttps://fl10.moveonjoy.com/A\n")).1
      = chars "#EXTM3U\nhttps://fl10.moveonjoy.com/A\n" := by
  have h := C5_roundtrip [chars "#EXTM3U", chars "https://fl10.moveonjoy.com/A"]
    (by decide) (by decide)
    (by
      intro l hl
      simp only [List.getLast?_cons_cons, List.getLast?_singleton, Option.some.injEq] at hl
      rw [← hl]
      decide)
  have he : joinLines [chars "#EXTM3U", chars "https://fl10.moveonjoy.com/A"] ++ '\n' :: []
      = chars "#EXTM3U\nhttps://fl10.moveonjoy.com/A\n" := by decide
  exact ⟨he, by rw [← he]; exact h⟩

/-! Per-index characterization of the failover pass on a well-formed
catalog, used for the idempotence claim. -/

theorem per_channel_untouched_of_no_entry (probe : Line → Bool) (lines : List Line)
    (cm : Line) (j : Nat)
    (h : ∀ path, (j, path) ∉ to_fixOf probe lines cm) :
    ((per_channel_failover_fast probe lines cm).lines)[j]? = lines[j]? := by
  unfold per_channel_failover_fast
  split
  · rfl
  · split
    · rfl
    · apply failover_foldl_untouched
      intro e he heq
      exfalso
      apply h e.2
      have : (j, e.2) = e := by rw [← heq]
      rw [this]
      exact he

theorem per_channel_none (probe : Line → Bool) (lines : List Line) (cm : Line) (j : Nat)
    (h : lines[j]? = none) :
    ((per_channel_failover_fast probe lines cm).lines)[j]? = none := by
  have hlen := per_channel_length probe lines cm
  rw [List.getElem?_eq_none]
  rw [hlen]
  by_contra hlt
  push_neg at hlt
  rw [List.getElem?_eq_none_iff] at h
  omega

theorem per_channel_untouched_parse_none (probe : Line → Bool) (lines : List Line)
    (ds_cm : Line) (hWF : WFCatalog lines) (hdig : ∀ c ∈ ds_cm, c.isDigit = true)
    (j : Nat) (line : Line) (hline : lines[j]? = some line)
    (hparse : bareFLParse line = none) :
    ((per_channel_failover_fast probe lines (chars "fl" ++ ds_cm)).lines)[j]?
      = some line := by
  rw [per_channel_untouched_of_no_entry probe lines _ j ?_, hline]
  intro path hmem
  obtain ⟨full, henum, _⟩ := mem_to_fixOf.mp hmem
  obtain ⟨line2, hline2, hparse2, _⟩ := (mem_enumerate_using_WF hWF hdig).mp henum
  rw [hline] at hline2
  simp only [Option.some.injEq] at hline2
  rw [← hline2] at hparse2
  rw [hparse] at hparse2
  exact absurd hparse2 (by simp)

theorem per_channel_untouched_other_sub (probe : Line → Bool) (lines : List Line)
    (ds_cm : Line) (hWF : WFCatalog lines) (hdig : ∀ c ∈ ds_cm, c.isDigit = true)
    (j : Nat) (line ds p : Line) (hline : lines[j]? = some line)
    (hparse : bareFLParse line = some (ds, p)) (hne : ds ≠ ds_cm) :
    ((per_channel_failover_fast probe lines (chars "fl" ++ ds_cm)).lines)[j]?
      = some line := by
  rw [per_channel_untouched_of_no_entry probe lines _ j ?_, hline]
  intro path hmem
  obtain ⟨full, henum, _⟩ := mem_to_fixOf.mp hmem
  obtain ⟨line2, hline2, hparse2, _⟩ := (mem_enumerate_using_WF hWF hdig).mp henum
  rw [hline] at hline2
  simp only [Option.some.injEq] at hline2
  rw [← hline2] at hparse2
  rw [hparse] at hparse2
  simp only [Option.some.injEq, Prod.mk.injEq] at hparse2
  exact hne hparse2.1

theorem per_channel_untouched_probe_ok (probe : Line → Bool) (lines : List Line)
    (ds_cm : Line) (hWF : WFCatalog lines) (hdig : ∀ c ∈ ds_cm, c.isDigit = true)
    (j : Nat) (line p : Line) (hline : lines[j]? = some line)
    (hparse : bareFLParse line = some (ds_cm, p))
    (hp : probe (mkUrl (chars "fl" ++ ds_cm) p) = true) :
    ((per_channel_failover_fast probe lines (chars "fl" ++ ds_cm)).lines)[j]?
      = some line := by
  rw [per_channel_untouched_of_no_entry probe lines _ j ?_, hline]
  intro path hmem
  obtain ⟨full, henum, hpf⟩ := mem_to_fixOf.mp hmem
  obtain ⟨line2, hline2, hparse2, _⟩ := (mem_enumerate_using_WF hWF hdig).mp henum
  rw [hline] at hline2
  simp only [Option.some.injEq] at hline2
  rw [← hline2] at hparse2
  rw [hparse] at hparse2
  simp only [Option.some.injEq, Prod.mk.injEq] at hparse2
  rw [← hparse2.2] at hpf
  rw [hp] at hpf
  exact absurd hpf (by simp)

theorem per_channel_entry_mem (probe : Line → Bool) (lines : List Line)
    (ds_cm : Line) (hWF : WFCatalog lines) (hdig : ∀ c ∈ ds_cm, c.isDigit = true)
    (j : Nat) (line p : Line) (hline : lines[j]? = some line)
    (hparse : bareFLParse line = some (ds_cm, p))
    (hp : probe (mkUrl (chars "fl" ++ ds_cm) p) = false) :
    (j, p) ∈ to_fixOf probe lines (chars "fl" ++ ds_cm) :=
  mem_to_fixOf.mpr ⟨line, (mem_enumerate_using_WF hWF hdig).mpr ⟨line, hline, hparse, rfl⟩, hp⟩

theorem per_channel_set_fallback (probe : Line → Bool) (lines : List Line)
    (ds_cm : Line) (hWF : WFCatalog lines) (hdig : ∀ c ∈ ds_cm, c.isDigit = true)
    (j : Nat) (line p fb : Line) (hline : lines[j]? = some line)
    (hparse : bareFLParse line = some (ds_cm, p))
    (hp : probe (mkUrl (chars "fl" ++ ds_cm) p) = false)
    (hff : find_fallback_for_path_parallel probe p (some (chars "fl" ++ ds_cm)) = some fb) :
    ((per_channel_failover_fast probe lines (chars "fl" ++ ds_cm)).lines)[j]?
      = some (mkUrl fb p) := by
  have hmem := per_channel_entry_mem probe lines ds_cm hWF hdig j line p hline hparse hp
  obtain ⟨hlineEq, hds, hdigl, hpne, hps, hptok⟩ := bareFLParse_decomp hparse
  unfold per_channel_failover_fast
  split
  · rename_i hempty
    rw [List.isEmpty_iff] at hempty
    exfalso
    obtain ⟨full, henum, _⟩ := mem_to_fixOf.mp hmem
    rw [hempty] at henum
    exact absurd henum (by simp)
  · split
    · rename_i hempty
      rw [List.isEmpty_iff] at hempty
      rw [hempty] at hmem
      exact absurd hmem (by simp)
    · have := failover_foldl_set probe (chars "fl" ++ ds_cm) _ ⟨lines, false, []⟩ (j, p) fb
        (to_fixOf_pairwise probe lines (chars "fl" ++ ds_cm)) hmem hff
      simp only at this
      rw [this, hline]
      simp only [Option.map_some']
      congr 1
      rw [hlineEq]
      have hm := @matchFLAt_pos ds_cm p [] hds hdigl hpne hps (by intro c hc; simp at hc)
      rw [List.append_nil] at hm
      exact reSubAll_of_match_rest_nil hm rfl _

theorem per_channel_untouched_no_fallback (probe : Line → Bool) (lines : List Line)
    (ds_cm : Line) (hWF : WFCatalog lines) (hdig : ∀ c ∈ ds_cm, c.isDigit = true)
    (j : Nat) (line p : Line) (hline : lines[j]? = some line)
    (hparse : bareFLParse line = some (ds_cm, p))
    (hp : probe (mkUrl (chars "fl" ++ ds_cm) p) = false)
    (hff : find_fallback_for_path_parallel probe p (some (chars "fl" ++ ds_cm)) = none) :
    ((per_channel_failover_fast probe lines (chars "fl" ++ ds_cm)).lines)[j]?
      = some line := by
  have hmem := per_channel_entry_mem probe lines ds_cm hWF hdig j line p hline hparse hp
  have key : ((per_channel_failover_fast probe lines (chars "fl" ++ ds_cm)).lines)[j]?
      = lines[j]? := by
    unfold per_channel_failover_fast
    split
    · rfl
    · split
      · rfl
      · apply failover_foldl_untouched
        intro e he heq
        have : e = (j, p) := pairwise_fst_unique
          (to_fixOf_pairwise probe lines (chars "fl" ++ ds_cm)) he hmem heq
        rw [this]
        exact hff
  rw [key, hline]

/-- The failover pass preserves catalog well-formedness. -/
theorem per_channel_WF_preserved (probe : Line → Bool) (lines : List Line) (ds_cm : Line)
    (hWF : WFCatalog lines) (hdig : ∀ c ∈ ds_cm, c.isDigit = true) :
    WFCatalog (per_channel_failover_fast probe lines (chars "fl" ++ ds_cm)).lines := by
  intro line' hmem'
  obtain ⟨j, hj, hje⟩ := List.getElem_of_mem hmem'
  have hj' : ((per_channel_failover_fast probe lines (chars "fl" ++ ds_cm)).lines)[j]?
      = some line' := by
    rw [List.getElem?_eq_getElem hj, hje]
  cases hline : lines[j]? with
  | none =>
    rw [per_channel_none probe lines _ j hline] at hj'
    exact absurd hj' (by simp)
  | some line =>
    have hWFl := hWF line (List.getElem?_mem hline)
    cases hparse : bareFLParse line with
    | none =>
      rw [per_channel_untouched_parse_none probe lines ds_cm hWF hdig j line hline hparse] at hj'
      simp only [Option.some.injEq] at hj'
      rw [← hj']
      exact hWFl
    | some dp =>
      obtain ⟨ds, p⟩ := dp
      by_cases hds : ds = ds_cm
      · subst hds
        by_cases hp : probe (mkUrl (chars "fl" ++ ds) p) = true
        · rw [per_channel_untouched_probe_ok probe lines ds hWF hdig j line p
            hline hparse hp] at hj'
          simp only [Option.some.injEq] at hj'
          rw [← hj']
          exact hWFl
        · have hpf : probe (mkUrl (chars "fl" ++ ds) p) = false := Bool.eq_false_iff.mpr hp
          cases hff : find_fallback_for_path_parallel probe p (some (chars "fl" ++ ds)) with
          | none =>
            rw [per_channel_untouched_no_fallback probe lines ds hWF hdig j line p
              hline hparse hpf hff] at hj'
            simp only [Option.some.injEq] at hj'
            rw [← hj']
            exact hWFl
          | some fb =>
            rw [per_channel_set_fallback probe lines ds hWF hdig j line p fb
              hline hparse hpf hff] at hj'
            simp only [Option.some.injEq] at hj'
            rw [← hj']
            rw [find_fallback_eq_find?] at hff
            obtain ⟨n, _, _, hfb, _⟩ := mem_candidateSubs.mp (List.mem_of_find?_eq_some hff)
            obtain ⟨_, _, _, hpne, hps, hptok⟩ := bareFLParse_decomp hparse
            unfold WFLine
            rw [hfb, show flName n = chars "fl" ++ natToDigits n from rfl, mkUrl_fl]
            rw [bareFLParse_mk (natToDigits_ne_nil n) (natToDigits_digits n) hpne hps hptok]
            simp
      · rw [per_channel_untouched_other_sub probe lines ds_cm hWF hdig j line ds p
          hline hparse hds] at hj'
        simp only [Option.some.injEq] at hj'
        rw [← hj']
        exact hWFl

/-- After one failover pass on a well-formed catalog, every entry the pass
would try to fix on a second identical run has no fallback. -/
theorem per_channel_second_run_ff_none (probe : Line → Bool) (lines : List Line)
    (ds_cm : Line) (hWF : WFCatalog lines) (hdig : ∀ c ∈ ds_cm, c.isDigit = true) :
    ∀ e ∈ to_fixOf probe
        (per_channel_failover_fast probe lines (chars "fl" ++ ds_cm)).lines
        (chars "fl" ++ ds_cm),
      find_fallback_for_path_parallel probe e.2 (some (chars "fl" ++ ds_cm)) = none := by
  intro e he
  have hWF1 := per_channel_WF_preserved probe lines ds_cm hWF hdig
  obtain ⟨full, henum, hpf2⟩ := mem_to_fixOf.mp he
  obtain ⟨line2, hline2, hparse2, _⟩ := (mem_enumerate_using_WF hWF1 hdig).mp henum
  cases hline : lines[e.1]? with
  | none =>
    rw [per_channel_none probe lines _ e.1 hline] at hline2
    exact absurd hline2 (by simp)
  | some line =>
    cases hparse : bareFLParse line with
    | none =>
      rw [per_channel_untouched_parse_none probe lines ds_cm hWF hdig e.1 line
        hline hparse] at hline2
      simp only [Option.some.injEq] at hline2
      rw [← hline2, hparse] at hparse2
      exact absurd hparse2 (by simp)
    | some dp =>
      obtain ⟨ds, p⟩ := dp
      by_cases hds : ds = ds_cm
      · subst hds
        by_cases hp : probe (mkUrl (chars "fl" ++ ds) p) = true
        · rw [per_channel_untouched_probe_ok probe lines ds hWF hdig e.1 line p
            hline hparse hp] at hline2
          simp only [Option.some.injEq] at hline2
          rw [← hline2, hparse] at hparse2
          simp only [Option.some.injEq, Prod.mk.injEq] at hparse2
          rw [← hparse2.2] at hpf2
          rw [hp] at hpf2
          exact absurd hpf2 (by simp)
        · have hpf : probe (mkUrl (chars "fl" ++ ds) p) = false := Bool.eq_false_iff.mpr hp
          cases hff : find_fallback_for_path_parallel probe p (some (chars "fl" ++ ds)) with
          | none =>
            rw [per_channel_untouched_no_fallback probe lines ds hWF hdig e.1 line p
              hline hparse hpf hff] at hline2
            simp only [Option.some.injEq] at hline2
            rw [← hline2, hparse] at hparse2
            simp only [Option.some.injEq, Prod.mk.injEq] at hparse2
            rw [← hparse2.2]
            exact hff
          | some fb =>
            exfalso
            rw [per_channel_set_fallback probe lines ds hWF hdig e.1 line p fb
              hline hparse hpf hff] at hline2
            simp only [Option.some.injEq] at hline2
            rw [find_fallback_eq_find?] at hff
            obtain ⟨n, _, _, hfb, hexne⟩ := mem_candidateSubs.mp (List.mem_of_find?_eq_some hff)
            obtain ⟨_, _, _, hpne, hps, hptok⟩ := bareFLParse_decomp hparse
            rw [hfb, show flName n = chars "fl" ++ natToDigits n from rfl, mkUrl_fl] at hline2
            rw [← hline2] at hparse2
            rw [bareFLParse_mk (natToDigits_ne_nil n) (natToDigits_digits n)
              hpne hps hptok] at hparse2
            simp only [Option.some.injEq, Prod.mk.injEq] at hparse2
            apply hexne
            rw [show flName n = chars "fl" ++ natToDigits n from rfl, hparse2.1]
      · rw [per_channel_untouched_other_sub probe lines ds_cm hWF hdig e.1 line ds p
          hline hparse hds] at hline2
        simp only [Option.some.injEq] at hline2
        rw [← hline2, hparse] at hparse2
        simp only [Option.some.injEq, Prod.mk.injEq] at hparse2
        exact absurd hparse2.1 hds

/-- C7 counterexample: running the failover pass twice with the same
(cached) probe results is not idempotent in general.  With one catalog line
whose path itself contains the token `fl10.moveonjoy.com`, the first run
rewrites the line from fl10 to fl22; the second run still enumerates the
rewritten line for fl10 (the token occurs inside the path), re-derives the
same fallback fl22, and reports `changed = true` even though the catalog
text is unchanged — the claim requires `changed = false`. -/
theorem C7_counterexample :
    (per_channel_failover_fast
        (fun u => u == chars "https://fl22.moveonjoy.com/x/fl10.moveonjoy.com")
        [chars "https://fl10.moveonjoy.com/x/fl10.moveonjoy.com"] (chars "fl10")).lines
      = [chars "https://fl22.moveonjoy.com/x/fl10.moveonjoy.com"] ∧
    (per_channel_failover_fast
        (fun u => u == chars "https://fl22.moveonjoy.com/x/fl10.moveonjoy.com")
        [chars "https://fl10.moveonjoy.com/x/fl10.moveonjoy.com"] (chars "fl10")).changed
      = true ∧
    (per_channel_failover_fast
        (fun u => u == chars "https://fl22.moveonjoy.com/x/fl10.moveonjoy.com")
        (per_channel_failover_fast
          (fun u => u == chars "https://fl22.moveonjoy.com/x/fl10.moveonjoy.com")
          [chars "https://fl10.moveonjoy.com/x/fl10.moveonjoy.com"] (chars "fl10")).lines
        (chars "fl10")).changed = true ∧
    (per_channel_failover_fast
        (fun u => u == chars "https://fl22.moveonjoy.com/x/fl10.moveonjoy.com")
        (per_channel_failover_fast
          (fun u => u == chars "https://fl22.moveonjoy.com/x/fl10.moveonjoy.com")
          [chars "https://fl10.moveonjoy.com/x/fl10.moveonjoy.com"] (chars "fl10")).lines
        (chars "fl10")).lines
      = [chars "https://fl22.moveonjoy.com/x/fl10.moveonjoy.com"] := by
  refine ⟨by decide, by decide, by decide, by decide⟩

/-- C7 amended: on a well-formed catalog — every line either a bare mirror
URL whose path does not contain the `.moveonjoy.com` token, or a line free
of that token — running the failover pass a second time immediately after
a run, with the per-run probe cache returning the same results, produces
`changed = false` and a line list (hence a serialized catalog) identical to
the first run's output. -/
theorem C7_failover_idempotent (probe : Line → Bool) (lines : List Line) (ds_cm : Line)
    (hWF : WFCatalog lines) (hdig : ∀ c ∈ ds_cm, c.isDigit = true) :
    (per_channel_failover_fast probe
        (per_channel_failover_fast probe lines (chars "fl" ++ ds_cm)).lines
        (chars "fl" ++ ds_cm)).changed = false ∧
    (per_channel_failover_fast probe
        (per_channel_failover_fast probe lines (chars "fl" ++ ds_cm)).lines
        (chars "fl" ++ ds_cm)).lines
      = (per_channel_failover_fast probe lines (chars "fl" ++ ds_cm)).lines ∧
    joinLines (per_channel_failover_fast probe
        (per_channel_failover_fast probe lines (chars "fl" ++ ds_cm)).lines
        (chars "fl" ++ ds_cm)).lines
      = joinLines (per_channel_failover_fast probe lines (chars "fl" ++ ds_cm)).lines := by
  have hnone := per_channel_second_run_ff_none probe lines ds_cm hWF hdig
  set L1 := (per_channel_failover_fast probe lines (chars "fl" ++ ds_cm)).lines with hL1
  have hchanged : (per_channel_failover_fast probe L1 (chars "fl" ++ ds_cm)).changed
      = false := by
    unfold per_channel_failover_fast
    split
    · rfl
    · split
      · rfl
      · rw [failover_foldl_changed]
        simp only [Bool.false_or]
        rw [List.any_eq_false]
        intro e he
        rw [hnone e he]
        simp
  have hlines : (per_channel_failover_fast probe L1 (chars "fl" ++ ds_cm)).lines = L1 := by
    unfold per_channel_failover_fast
    split
    · rfl
    · split
      · rfl
      · apply List.ext_getElem?
        intro i
        apply failover_foldl_untouched
        intro e he _
        exact hnone e he
  exact ⟨hchanged, hlines, by rw [hlines]⟩

/-- Witness for C7's amended idempotence on a concrete well-formed
catalog. -/
theorem C7_failover_idempotent_witness :
    WFCatalog [chars "https://fl10.moveonjoy.com/A", chars "#EXTINF:-1 tvg-name"] ∧
    (per_channel_failover_fast (fun _ => false)
        (per_channel_failover_fast (fun _ => false)
          [chars "https://fl10.moveonjoy.com/A", chars "#EXTINF:-1 tvg-name"]
          (chars "fl" ++ chars "10")).lines
        (chars "fl" ++ chars "10")).changed = false :=
  ⟨by unfold WFCatalog; decide,
   (C7_failover_idempotent (fun _ => false)
      [chars "https://fl10.moveonjoy.com/A", chars "#EXTINF:-1 tvg-name"]
      (chars "10") (by unfold WFCatalog; decide) (by decide)).1⟩
